import Mathlib

/-!
# unique_pairs.c : the pair-counting hash table

A shallow embedding of `packages/dataset/c/unique_pairs.c` and the properties of its
open-addressing hash table (`create_hash_table`, `hash_word_pair`, `resize_hash_table`,
`insert_or_update`) and of the record loop of `process_csv`.

Modelling conventions.

* A byte is a `Fin 256`.  A `const char*` argument is the list of bytes found at the pointer;
  the C string it denotes is the part before the first NUL (`cstr`), the end of the list
  standing for the terminating NUL.
* A `char[256]` field of a `WordPair` is represented by the C string it holds.  Every write to
  such a field in the program is a `strncpy` of 255 bytes followed by a NUL store at offset 255
  (or `calloc`, or a whole-struct copy), so the bytes behind the terminator are all zero and the
  content determines the buffer.
* `uint64_t` arithmetic of the hash is reduced modulo `2^64`, the `uint32_t` counter modulo
  `2^32`.  The signedness of plain `char` is implementation-defined and is a parameter
  (`signedChar`).
* The pair (`entries` pointer, `capacity`) of a `HashTable` is a list of slots; `capacity` is
  its length.  `size_t` values are natural numbers: a table that exists in memory has
  `capacity * sizeof(WordPair) < 2^64`, so doubling the capacity does not wrap.
* Allocation is assumed to succeed (the program exits otherwise).
* The test `(double)size / capacity >= 0.7` is modelled by the exact comparison
  `7 * capacity ≤ 10 * size`; the two agree for every capacity below `2^49`.
* A result of `none` stands for an execution that produces no result: a probe loop that never
  ends, or the division by zero of `hash % 0`.
-/

namespace UniquePairs

/-- One byte of a C string or of the input file. -/
abbrev Byte := Fin 256

def MAX_LINE_LENGTH : Nat := 1024

def MAX_WORD_LENGTH : Nat := 256

def INITIAL_HASHTABLE_SIZE : Nat := 1000000

/-- The C string at a pointer: the bytes before the first NUL. -/
def cstr : List Byte → List Byte
  | [] => []
  | b :: rest => if b = 0 then [] else b :: cstr rest

/-- The test `strcmp(a, b) == 0`. -/
def strcmp_eq (a b : List Byte) : Bool :=
  decide (cstr a = cstr b)

/-- The content of a 256-byte buffer after `strncpy(dst, src, MAX_WORD_LENGTH - 1)` and
`dst[MAX_WORD_LENGTH - 1] = 0`. -/
def strncpy_word (src : List Byte) : List Byte :=
  (cstr src).take (MAX_WORD_LENGTH - 1)

/-- The struct `WordPair`; the two buffers are represented by the strings they hold. -/
structure WordPair where
  first : List Byte
  second : List Byte
  count : Nat
  occupied : Bool
deriving DecidableEq, Repr

/-- A slot as `calloc` leaves it: all bytes zero. -/
def WordPair.zeroed : WordPair :=
  { first := [], second := [], count := 0, occupied := false }

/-- The struct `HashTable`: the array of `capacity` slots and the `size` counter. -/
structure HashTable where
  entries : List WordPair
  size : Nat
deriving DecidableEq, Repr

/-- The field `capacity`: the number of slots of the backing array. -/
def HashTable.capacity (t : HashTable) : Nat :=
  t.entries.length

/-- The slot `entries[index]`. -/
def slot (entries : List WordPair) (index : Nat) : WordPair :=
  (entries[index]?).getD WordPair.zeroed

def create_hash_table (capacity : Nat) : HashTable :=
  { entries := List.replicate capacity WordPair.zeroed, size := 0 }

/-- The assignment `c = *str` of a plain `char` to an `int`. -/
def char_to_int (signedChar : Bool) (b : Byte) : Int :=
  if signedChar && decide (128 ≤ b.val) then (b.val : Int) - 256 else (b.val : Int)

/-- Conversion of an `int` to `uint64_t`. -/
def to_uint64 (c : Int) : Nat :=
  (c % (2 ^ 64 : Int)).toNat

/-- One round `hash = ((hash << 5) + hash) + c` in `uint64_t`. -/
def hash_step (signedChar : Bool) (hash : Nat) (b : Byte) : Nat :=
  ((((hash <<< 5) % 2 ^ 64 + hash) % 2 ^ 64) + to_uint64 (char_to_int signedChar b)) % 2 ^ 64

/-- The loop `while ((c = *str++)) hash = ...` over one string. -/
def hash_loop (signedChar : Bool) : Nat → List Byte → Nat
  | hash, [] => hash
  | hash, b :: str =>
    if b = 0 then hash else hash_loop signedChar (hash_step signedChar hash b) str

def hash_word_pair (signedChar : Bool) (first second : List Byte) (table_size : Nat) : Nat :=
  hash_loop signedChar (hash_loop signedChar 5381 first) second % table_size

/-- The inner loop of `resize_hash_table`: `while (new_entries[index].occupied) index = ...`.
The first argument bounds the number of slots visited. -/
def probe_empty (entries : List WordPair) : Nat → Nat → Option Nat
  | 0, _ => none
  | fuel + 1, index =>
    if (slot entries index).occupied then
      probe_empty entries fuel ((index + 1) % entries.length)
    else some index

/-- The loop `for (i = 0; i < old_capacity; i++)` of `resize_hash_table`, over the old slots
that remain; the state is the new array and `new_table.size`. -/
def rehash (signedChar : Bool) : List WordPair → List WordPair × Nat → Option (List WordPair × Nat)
  | [], acc => some acc
  | e :: rest, (new_entries, size) =>
    if e.occupied then
      match probe_empty new_entries new_entries.length
          (hash_word_pair signedChar e.first e.second new_entries.length) with
      | none => none
      | some index => rehash signedChar rest (new_entries.set index e, size + 1)
    else rehash signedChar rest (new_entries, size)

def resize_hash_table (signedChar : Bool) (table : HashTable) : Option HashTable :=
  let new_capacity := table.capacity * 2
  match rehash signedChar table.entries (List.replicate new_capacity WordPair.zeroed, 0) with
  | none => none
  | some (new_entries, size) => some { entries := new_entries, size := size }

/-- The test `(double)table->size / table->capacity >= LOAD_FACTOR_THRESHOLD`.  With capacity
zero the quotient is NaN for size zero (test false) and infinite otherwise (test true). -/
def load_factor_reached (table : HashTable) : Bool :=
  if table.capacity = 0 then decide (0 < table.size)
  else decide (7 * table.capacity ≤ 10 * table.size)

/-- The probe loop of `insert_or_update`: the index at which it stops, and whether it stopped
on a slot holding the same pair.  The first argument bounds the number of slots visited. -/
def probe_insert (entries : List WordPair) (first second : List Byte) :
    Nat → Nat → Option (Nat × Bool)
  | 0, _ => none
  | fuel + 1, index =>
    if (slot entries index).occupied then
      if strcmp_eq (slot entries index).first first
          && strcmp_eq (slot entries index).second second then
        some (index, true)
      else probe_insert entries first second fuel ((index + 1) % entries.length)
    else some (index, false)

/-- The table after the resize check at the head of `insert_or_update`. -/
def resize_check (signedChar : Bool) (table : HashTable) : Option HashTable :=
  if load_factor_reached table then resize_hash_table signedChar table else some table

/-- The probe of `insert_or_update` on the table as it is after the resize check. -/
def find_slot (signedChar : Bool) (table : HashTable) (first second : List Byte) :
    Option (Nat × Bool) :=
  if table.capacity = 0 then none
  else probe_insert table.entries first second table.capacity
    (hash_word_pair signedChar first second table.capacity)

def insert_or_update (signedChar : Bool) (table : HashTable) (first second : List Byte) :
    Option HashTable :=
  match resize_check signedChar table with
  | none => none
  | some t =>
    match find_slot signedChar t first second with
    | none => none
    | some (index, true) =>
      some { t with
        entries := t.entries.set index
          { slot t.entries index with count := ((slot t.entries index).count + 1) % 2 ^ 32 } }
    | some (index, false) =>
      some
        { entries := t.entries.set index
            { first := strncpy_word first, second := strncpy_word second,
              count := 1, occupied := true },
          size := t.size + 1 }

/-- A sequence of `insert_or_update` calls, in order. -/
def upserts (signedChar : Bool) : HashTable → List (List Byte × List Byte) → Option HashTable
  | t, [] => some t
  | t, (first, second) :: rest =>
    match insert_or_update signedChar t first second with
    | none => none
    | some t1 => upserts signedChar t1 rest

/-! ## The record loop of `process_csv` -/

/-- The bytes `fgets` stores when it may still store `n` bytes, and the rest of the file: it
stops after a newline, at the end of the file, or when the buffer is full. -/
def fgets_loop : Nat → List Byte → List Byte × List Byte
  | 0, file => ([], file)
  | _ + 1, [] => ([], [])
  | n + 1, b :: rest =>
    if b = 10 then ([b], rest)
    else ((b :: (fgets_loop n rest).1), (fgets_loop n rest).2)

/-- The call `fgets(line, size, file)`: `none` is the NULL returned at the end of the file,
otherwise the bytes stored before the terminator and the rest of the file. -/
def fgets (size : Nat) (file : List Byte) : Option (List Byte × List Byte) :=
  match file with
  | [] => none
  | _ :: _ => some (fgets_loop (size - 1) file)

/-- The directive `%255[^,]` of `sscanf`: the longest run of bytes other than `,` at the head
of the input, cut at 255 bytes; a matching failure (`none`) when that run is empty.  The
result is the run and the input left behind it. -/
def scan_field (input : List Byte) : Option (List Byte × List Byte) :=
  if (input.takeWhile (fun b => decide (b ≠ 44))).take 255 = [] then none
  else some ((input.takeWhile (fun b => decide (b ≠ 44))).take 255,
    input.drop ((input.takeWhile (fun b => decide (b ≠ 44))).take 255).length)

/-- The test `sscanf(line, "%255[^,],%255[^,]", first, second) == 2`, with the two fields
when it holds. -/
def sscanf_pair (line : List Byte) : Option (List Byte × List Byte) :=
  match scan_field (cstr line) with
  | none => none
  | some (first, rest) =>
    match rest with
    | [] => none
    | c :: rest2 =>
      if c = 44 then
        match scan_field rest2 with
        | none => none
        | some (second, _) => some (first, second)
      else none

/-- The line after `if (len > 0 && line[len - 1] == '\n') line[len - 1] = '\0'`. -/
def strip_newline (line : List Byte) : List Byte :=
  if (cstr line).getLast? = some 10 then (cstr line).dropLast else cstr line

/-- The pair that one buffer read by `fgets` sends to `insert_or_update`, if any. -/
def parse_record (line : List Byte) : Option (List Byte × List Byte) :=
  if strip_newline line = [] then none else sscanf_pair (strip_newline line)

/-- The body of the `while (fgets(...))` loop of `process_csv`, without the progress report. -/
def process_line (signedChar : Bool) (table : HashTable) (line : List Byte) :
    Option HashTable :=
  match parse_record line with
  | none => some table
  | some (first, second) => insert_or_update signedChar table first second

/-- The loop `while (fgets(line, sizeof(line), file))`; the first argument bounds the number
of reads. -/
def process_loop (signedChar : Bool) : Nat → HashTable → List Byte → Option HashTable
  | 0, _, _ => none
  | fuel + 1, table, file =>
    match fgets MAX_LINE_LENGTH file with
    | none => some table
    | some (line, rest) =>
      match process_line signedChar table line with
      | none => none
      | some t => process_loop signedChar fuel t rest

/-- The function `process_csv` on the content of the input file, for a given initial
capacity.  Every read takes at least one byte, so one read more than the file has bytes is
enough. -/
def process_csv_with (signedChar : Bool) (capacity : Nat) (file : List Byte) :
    Option HashTable :=
  match fgets MAX_LINE_LENGTH file with
  | none => some (create_hash_table capacity)
  | some (_, rest) => process_loop signedChar (rest.length + 1) (create_hash_table capacity) rest

def process_csv (signedChar : Bool) (file : List Byte) : Option HashTable :=
  process_csv_with signedChar INITIAL_HASHTABLE_SIZE file

/-! ## Definitions used in the statements and proofs -/

/-- The number of slots with `occupied` set. -/
def occupied_count (entries : List WordPair) : Nat :=
  entries.countP (fun e => e.occupied)

/-- The test of the probe loop of `insert_or_update` on one slot. -/
def same_pair (first second : List Byte) (e : WordPair) : Bool :=
  strcmp_eq e.first first && strcmp_eq e.second second

/-- The occupied slots, in array order. -/
def occupied_entries (entries : List WordPair) : List WordPair :=
  entries.filter (fun e => e.occupied)

/-- Every occupied slot is reached from the hash index of the pair it holds through occupied
slots only. -/
def Reach (signedChar : Bool) (es : List WordPair) : Prop :=
  ∀ i, i < es.length → (slot es i).occupied = true →
    ∃ d, d < es.length ∧
      i = (hash_word_pair signedChar (slot es i).first (slot es i).second es.length + d)
            % es.length ∧
      ∀ k, k < d →
        (slot es ((hash_word_pair signedChar (slot es i).first (slot es i).second es.length + k)
            % es.length)).occupied = true

/-- The size counter agrees with the array, and the array is not empty. -/
structure Counted (t : HashTable) : Prop where
  cap_pos : 0 < t.capacity
  size_eq : t.size = occupied_count t.entries

/-- The table written by `insert_or_update` once the probe has stopped at `index`. -/
def write_slot (t : HashTable) (first second : List Byte) (index : Nat) (found : Bool) :
    HashTable :=
  if found then
    { t with
      entries := t.entries.set index
        { slot t.entries index with count := ((slot t.entries index).count + 1) % 2 ^ 32 } }
  else
    { entries := t.entries.set index
        { first := strncpy_word first, second := strncpy_word second,
          count := 1, occupied := true },
      size := t.size + 1 }

/-- A byte string without a NUL byte. -/
def NulFree (w : List Byte) : Prop :=
  (0 : Byte) ∉ w

/-- A field that `insert_or_update` stores unchanged: NUL-free and at most 255 bytes. -/
def valid_field (w : List Byte) : Prop :=
  NulFree w ∧ w.length ≤ 255

instance (w : List Byte) : Decidable (NulFree w) :=
  inferInstanceAs (Decidable ((0 : Byte) ∉ w))

instance (w : List Byte) : Decidable (valid_field w) :=
  inferInstanceAs (Decidable (NulFree w ∧ w.length ≤ 255))

/-- The test that a slot holds the pair `(a, b)`. -/
def holds_pair (a b : List Byte) (e : WordPair) : Bool :=
  decide (e.first = a) && decide (e.second = b)

/-- The occupied slots that hold the pair `(a, b)`, in array order. -/
def slots_of (entries : List WordPair) (a b : List Byte) : List WordPair :=
  (occupied_entries entries).filter (holds_pair a b)

/-- Add one occurrence of the pair `k` to a tally. -/
def bump (cnt : List Byte × List Byte → Nat) (k : List Byte × List Byte) :
    List Byte × List Byte → Nat :=
  fun k2 => cnt k2 + if k2 = k then 1 else 0

/-- The state of a table that has received, for every pair `k`, exactly `cnt k` calls. -/
structure TableInv (signedChar : Bool) (cnt : List Byte × List Byte → Nat) (t : HashTable) :
    Prop where
  counted : Counted t
  reach : Reach signedChar t.entries
  content : ∀ a b, slots_of t.entries a b
    = if cnt (a, b) = 0 then []
      else [{ first := a, second := b, count := cnt (a, b) % 2 ^ 32, occupied := true }]
  valid : ∀ a b, cnt (a, b) ≠ 0 → valid_field a ∧ valid_field b

/-- Every pair of a call sequence has both fields within the limits. -/
def valid_calls (calls : List (List Byte × List Byte)) : Prop :=
  ∀ c ∈ calls, valid_field c.1 ∧ valid_field c.2

/-- The load bound that holds after every call: the size is below `0.7 * capacity + 1`, and
at most `0.7 * capacity` when the capacity is a multiple of ten. -/
def load_bound (t : HashTable) : Prop :=
  10 * t.size ≤ 7 * t.capacity + 9 ∧ (10 ∣ t.capacity → 10 * t.size ≤ 7 * t.capacity)

instance (calls : List (List Byte × List Byte)) : Decidable (valid_calls calls) :=
  inferInstanceAs (Decidable (∀ c ∈ calls, valid_field c.1 ∧ valid_field c.2))

/-- The triple `(first, second, count)` held by a slot. -/
def triple (e : WordPair) : List Byte × List Byte × Nat :=
  (e.first, e.second, e.count)

/-- The hash in the words of the specification: from 5381, `h := (h * 33 + c) mod 2^64` for
every byte `c` of `first` and then of `second`, `c` being the value of the byte in 0..255. -/
def djb2_bytes (first second : List Byte) : Nat :=
  (first ++ second).foldl (fun h c => (h * 33 + c.val) % 2 ^ 64) 5381

/-- The same recurrence with `c` the value the byte has as a plain `char`: a byte of 128 or
more counts as its value minus 256 where plain `char` is signed. -/
def djb2_chars (signedChar : Bool) (first second : List Byte) : Nat :=
  (first ++ second).foldl
    (fun h c => (((h : Int) * 33 + char_to_int signedChar c) % 2 ^ 64).toNat) 5381

/-! ## Writing the results -/

/-- The conversion `%u`: the decimal digits of the number. -/
def decimal (n : Nat) : List Byte :=
  (Nat.toDigits 10 n).map (fun c => Fin.ofNat c.toNat)

/-- The header line `value,next_value,count` with its newline. -/
def output_header : List Byte :=
  [118, 97, 108, 117, 101, 44, 110, 101, 120, 116, 95, 118, 97, 108, 117, 101, 44, 99, 111,
    117, 110, 116, 10]

/-- The bytes printed by `fprintf(file, "%s,%s,%u\n", first, second, count)` for one slot. -/
def format_row (e : WordPair) : List Byte :=
  cstr e.first ++ 44 :: (cstr e.second ++ 44 :: (decimal e.count ++ [10]))

/-- The loop `for (i = 0; i < table->capacity; i++)` of `write_results` over the slots that
remain; the state is the content of the output file so far. -/
def write_loop : List WordPair → List Byte → List Byte
  | [], out => out
  | e :: rest, out =>
    if e.occupied then write_loop rest (out ++ format_row e) else write_loop rest out

/-- The function `write_results`, without the progress report: the content of the output
file, and the table as the call leaves it (the function only reads the table). -/
def write_results (table : HashTable) : List Byte × HashTable :=
  (write_loop table.entries output_header, table)

/-- The run of `main`: `process_csv`, then `write_results`; the result is the content of the
output file. -/
def main_output_with (signedChar : Bool) (capacity : Nat) (file : List Byte) :
    Option (List Byte) :=
  (process_csv_with signedChar capacity file).map (fun t => (write_results t).1)

def main_output (signedChar : Bool) (file : List Byte) : Option (List Byte) :=
  (process_csv signedChar file).map (fun t => (write_results t).1)

/-! ## Definitions used in the statements on the input and the output -/

/-- The text of a list of lines, each followed by a newline. -/
def text_of_lines : List (List Byte) → List Byte
  | [] => []
  | l :: rest => l ++ 10 :: text_of_lines rest

/-- The body of the loop of `process_csv` applied to a list of buffers, in order. -/
def process_lines (signedChar : Bool) : HashTable → List (List Byte) → Option HashTable
  | t, [] => some t
  | t, line :: rest =>
    match process_line signedChar t line with
    | none => none
    | some t1 => process_lines signedChar t1 rest

/-- A record line that holds the delimiter; a blank line holds none. -/
def has_delimiter (l : List Byte) : Bool :=
  decide ((44 : Byte) ∈ l)

/-- The indices of the occupied slots, in increasing order. -/
def occupied_indices (entries : List WordPair) : List Nat :=
  (List.range entries.length).filter (fun i => (slot entries i).occupied)

/-- The entry that a table holds for the pair `k` after the calls `calls`. -/
def entry_of (calls : List (List Byte × List Byte)) (k : List Byte × List Byte) : WordPair :=
  { first := k.1, second := k.2, count := calls.count k % 2 ^ 32, occupied := true }

/-- The input of the end-to-end scenario: the lines `value,next_value`, `cat,dog`, `cat,dog`
and `fish,bird`, each with its newline. -/
def scenario_input : List Byte :=
  [118, 97, 108, 117, 101, 44, 110, 101, 120, 116, 95, 118, 97, 108, 117, 101, 10,
    99, 97, 116, 44, 100, 111, 103, 10,
    99, 97, 116, 44, 100, 111, 103, 10,
    102, 105, 115, 104, 44, 98, 105, 114, 100, 10]

/-- The capacity is the initial one doubled some number of times, and once doubled the table
is at least 35 percent full. -/
def grown (capacity : Nat) (t : HashTable) : Prop :=
  ∃ k, t.capacity = capacity * 2 ^ k ∧ (1 ≤ k → 7 * t.capacity ≤ 20 * t.size)

/-! ## Slots and occupancy -/

theorem slot_of_lt {es : List WordPair} {i : Nat} (h : i < es.length) : slot es i = es[i] := by
  simp [slot, List.getElem?_eq_getElem h]

theorem slot_mem {es : List WordPair} {i : Nat} (h : i < es.length) : slot es i ∈ es := by
  rw [slot_of_lt h]
  exact List.getElem_mem h

theorem slot_set (es : List WordPair) (j : Nat) (x : WordPair) (i : Nat) :
    slot (es.set j x) i = if j = i ∧ j < es.length then x else slot es i := by
  unfold slot
  rw [List.getElem?_set]
  by_cases hji : j = i
  · subst hji
    by_cases hj : j < es.length
    · simp [hj]
    · simp [hj, List.getElem?_eq_none (Nat.le_of_not_lt hj)]
  · simp [hji]

theorem slot_replicate (n i : Nat) : slot (List.replicate n WordPair.zeroed) i = WordPair.zeroed := by
  unfold slot
  rw [List.getElem?_replicate]
  split <;> rfl

theorem exists_free_slot {es : List WordPair} (h : occupied_count es < es.length) :
    ∃ j, j < es.length ∧ (slot es j).occupied = false := by
  by_contra hcon
  have hall : ∀ e ∈ es, e.occupied = true := by
    intro e he
    obtain ⟨i, hi, rfl⟩ := List.getElem_of_mem he
    by_contra hne
    apply hcon
    refine ⟨i, hi, ?_⟩
    rw [slot_of_lt hi]
    simpa using hne
  have : occupied_count es = es.length := by
    unfold occupied_count
    rw [List.countP_eq_length]
    exact hall
  omega

/-! ## Cyclic offsets -/

theorem exists_offset {n idx j : Nat} (hidx : idx < n) (hj : j < n) :
    ∃ d, d < n ∧ (idx + d) % n = j := by
  by_cases h : idx ≤ j
  · refine ⟨j - idx, by omega, ?_⟩
    have : idx + (j - idx) = j := by omega
    rw [this, Nat.mod_eq_of_lt hj]
  · refine ⟨n - idx + j, by omega, ?_⟩
    have : idx + (n - idx + j) = j + n := by omega
    rw [this, Nat.add_mod_right, Nat.mod_eq_of_lt hj]

theorem offset_inj {n h d1 d2 : Nat} (h1 : d1 < n) (h2 : d2 < n)
    (heq : (h + d1) % n = (h + d2) % n) : d1 = d2 := by
  have hm : Nat.ModEq n (h + d1) (h + d2) := heq
  have hm2 : Nat.ModEq n d1 d2 := Nat.ModEq.add_left_cancel' h hm
  exact Nat.ModEq.eq_of_lt_of_lt hm2 h1 h2

theorem offset_succ (n idx d : Nat) : ((idx + 1) % n + d) % n = (idx + (d + 1)) % n := by
  rw [Nat.add_mod, Nat.mod_mod, ← Nat.add_mod]
  congr 1
  omega

/-! ## The probe loops -/

theorem probe_empty_some (es : List WordPair) :
    ∀ (fuel idx : Nat), (∃ d, d < fuel ∧ (slot es ((idx + d) % es.length)).occupied = false) →
      idx < es.length → ∃ j, probe_empty es fuel idx = some j := by
  intro fuel
  induction fuel with
  | zero => intro idx ⟨d, hd, _⟩; omega
  | succ fuel ih =>
    intro idx ⟨d, hd, hfree⟩ hidx
    unfold probe_empty
    by_cases hocc : (slot es idx).occupied = true
    · rw [if_pos hocc]
      have hn : 0 < es.length := by omega
      cases d with
      | zero =>
        rw [Nat.add_zero, Nat.mod_eq_of_lt hidx] at hfree
        rw [hfree] at hocc
        cases hocc
      | succ d =>
        apply ih
        · refine ⟨d, by omega, ?_⟩
          rw [offset_succ]
          exact hfree
        · exact Nat.mod_lt _ hn
    · rw [if_neg hocc]
      exact ⟨idx, rfl⟩

theorem probe_empty_spec (es : List WordPair) :
    ∀ (fuel idx j : Nat), idx < es.length → probe_empty es fuel idx = some j →
      ∃ d, d < fuel ∧ j = (idx + d) % es.length ∧
        (∀ k, k < d → (slot es ((idx + k) % es.length)).occupied = true) ∧
        (slot es j).occupied = false := by
  intro fuel
  induction fuel with
  | zero => intro idx j _ h; simp [probe_empty] at h
  | succ fuel ih =>
    intro idx j hidx h
    unfold probe_empty at h
    by_cases hocc : (slot es idx).occupied = true
    · rw [if_pos hocc] at h
      have hn : 0 < es.length := by omega
      obtain ⟨d, hd, hj, hpath, hfree⟩ := ih _ j (Nat.mod_lt _ hn) h
      refine ⟨d + 1, by omega, ?_, ?_, hfree⟩
      · rw [hj, offset_succ]
      · intro k hk
        cases k with
        | zero => rw [Nat.add_zero, Nat.mod_eq_of_lt hidx]; exact hocc
        | succ k =>
          rw [← offset_succ]
          exact hpath k (by omega)
    · rw [if_neg hocc] at h
      cases h
      refine ⟨0, by omega, ?_, ?_, ?_⟩
      · rw [Nat.add_zero, Nat.mod_eq_of_lt hidx]
      · intro k hk; omega
      · simpa using hocc

theorem probe_insert_some (es : List WordPair) (f s : List Byte) :
    ∀ (fuel idx : Nat), (∃ d, d < fuel ∧ (slot es ((idx + d) % es.length)).occupied = false) →
      idx < es.length → ∃ r, probe_insert es f s fuel idx = some r := by
  intro fuel
  induction fuel with
  | zero => intro idx ⟨d, hd, _⟩; omega
  | succ fuel ih =>
    intro idx ⟨d, hd, hfree⟩ hidx
    unfold probe_insert
    by_cases hocc : (slot es idx).occupied = true
    · rw [if_pos hocc]
      split
      · exact ⟨_, rfl⟩
      · have hn : 0 < es.length := by omega
        cases d with
        | zero =>
          rw [Nat.add_zero, Nat.mod_eq_of_lt hidx] at hfree
          rw [hfree] at hocc
          cases hocc
        | succ d =>
          apply ih
          · refine ⟨d, by omega, ?_⟩
            rw [offset_succ]
            exact hfree
          · exact Nat.mod_lt _ hn
    · rw [if_neg hocc]
      exact ⟨_, rfl⟩

theorem probe_insert_spec (es : List WordPair) (f s : List Byte) :
    ∀ (fuel idx j : Nat) (b : Bool), idx < es.length →
      probe_insert es f s fuel idx = some (j, b) →
      ∃ d, d < fuel ∧ j = (idx + d) % es.length ∧
        (∀ k, k < d → (slot es ((idx + k) % es.length)).occupied = true ∧
          same_pair f s (slot es ((idx + k) % es.length)) = false) ∧
        (slot es j).occupied = b ∧ (b = true → same_pair f s (slot es j) = true) := by
  intro fuel
  induction fuel with
  | zero => intro idx j b _ h; simp [probe_insert] at h
  | succ fuel ih =>
    intro idx j b hidx h
    unfold probe_insert at h
    by_cases hocc : (slot es idx).occupied = true
    · rw [if_pos hocc] at h
      by_cases hsame : same_pair f s (slot es idx) = true
      · have hs2 := hsame
        unfold same_pair at hs2
        rw [if_pos hs2] at h
        cases h
        refine ⟨0, by omega, ?_, ?_, hocc, fun _ => hsame⟩
        · rw [Nat.add_zero, Nat.mod_eq_of_lt hidx]
        · intro k hk; omega
      · have hs2 := hsame
        unfold same_pair at hs2
        rw [if_neg hs2] at h
        have hn : 0 < es.length := by omega
        obtain ⟨d, hd, hj, hpath, hres⟩ := ih _ j b (Nat.mod_lt _ hn) h
        refine ⟨d + 1, by omega, ?_, ?_, hres⟩
        · rw [hj, offset_succ]
        · intro k hk
          cases k with
          | zero =>
            rw [Nat.add_zero, Nat.mod_eq_of_lt hidx]
            exact ⟨hocc, by simpa using hsame⟩
          | succ k =>
            rw [← offset_succ]
            exact hpath k (by omega)
    · rw [if_neg hocc] at h
      cases h
      refine ⟨0, by omega, ?_, ?_, ?_, ?_⟩
      · rw [Nat.add_zero, Nat.mod_eq_of_lt hidx]
      · intro k hk; omega
      · simpa using hocc
      · intro hb; cases hb

/-! ## Writing one slot -/

theorem occupied_count_eq (es : List WordPair) :
    occupied_count es = (occupied_entries es).length := by
  unfold occupied_count occupied_entries
  exact List.countP_eq_length_filter _ _

theorem occupied_count_le (es : List WordPair) : occupied_count es ≤ es.length := by
  unfold occupied_count
  exact List.countP_le_length _

theorem split_at_slot (es : List WordPair) (j : Nat) (hj : j < es.length) :
    es = es.take j ++ slot es j :: es.drop (j + 1) := by
  rw [slot_of_lt hj, ← List.drop_eq_getElem_cons hj, List.take_append_drop]

theorem set_at_slot (es : List WordPair) (j : Nat) (x : WordPair) (hj : j < es.length) :
    es.set j x = es.take j ++ x :: es.drop (j + 1) := by
  rw [List.set_eq_take_append_cons_drop, if_pos hj]

theorem filter_at_slot (p : WordPair → Bool) (es : List WordPair) (j : Nat)
    (hj : j < es.length) :
    es.filter p = (es.take j).filter p ++ ([slot es j].filter p ++ (es.drop (j + 1)).filter p) := by
  conv_lhs => rw [split_at_slot es j hj]
  rw [List.filter_append, ← List.singleton_append, List.filter_append]

theorem filter_set_slot (p : WordPair → Bool) (es : List WordPair) (j : Nat) (x : WordPair)
    (hj : j < es.length) :
    (es.set j x).filter p
      = (es.take j).filter p ++ ([x].filter p ++ (es.drop (j + 1)).filter p) := by
  rw [set_at_slot es j x hj, List.filter_append, ← List.singleton_append, List.filter_append]

theorem occupied_entries_set_free (es : List WordPair) (j : Nat) (x : WordPair)
    (hj : j < es.length) (hfree : (slot es j).occupied = false) (hx : x.occupied = true) :
    List.Perm (occupied_entries (es.set j x)) (x :: occupied_entries es) := by
  unfold occupied_entries
  rw [filter_set_slot _ es j x hj, filter_at_slot _ es j hj]
  simp only [List.filter_cons, List.filter_nil, hfree, hx, if_true, List.nil_append,
    List.singleton_append, Bool.false_eq_true, if_false]
  exact List.perm_middle

theorem occupied_count_set_free (es : List WordPair) (j : Nat) (x : WordPair)
    (hj : j < es.length) (hfree : (slot es j).occupied = false) (hx : x.occupied = true) :
    occupied_count (es.set j x) = occupied_count es + 1 := by
  rw [occupied_count_eq, occupied_count_eq,
    (occupied_entries_set_free es j x hj hfree hx).length_eq]
  rfl

theorem occupied_count_set_same (es : List WordPair) (j : Nat) (x : WordPair)
    (hj : j < es.length) (hocc : (slot es j).occupied = true) (hx : x.occupied = true) :
    occupied_count (es.set j x) = occupied_count es := by
  rw [occupied_count_eq, occupied_count_eq]
  unfold occupied_entries
  rw [filter_set_slot _ es j x hj, filter_at_slot _ es j hj]
  simp [hocc, hx]

/-! ## The probe path invariant -/

theorem Reach_replicate (sc : Bool) (n : Nat) : Reach sc (List.replicate n WordPair.zeroed) := by
  intro i _ hocc
  rw [slot_replicate] at hocc
  cases hocc

theorem Reach_set (sc : Bool) (es : List WordPair) (j : Nat) (x : WordPair)
    (hr : Reach sc es) (hj : j < es.length) (hx : x.occupied = true)
    (hpath : ∃ d, d < es.length ∧
      j = (hash_word_pair sc x.first x.second es.length + d) % es.length ∧
      ∀ k, k < d →
        (slot es ((hash_word_pair sc x.first x.second es.length + k) % es.length)).occupied
          = true) :
    Reach sc (es.set j x) := by
  have hmono : ∀ m, (slot es m).occupied = true → (slot (es.set j x) m).occupied = true := by
    intro m hm
    rw [slot_set]
    split
    · exact hx
    · exact hm
  intro i hi hocc
  rw [List.length_set] at hi ⊢
  by_cases hji : j = i
  · subst hji
    have hs : slot (es.set j x) j = x := by rw [slot_set]; simp [hj]
    rw [hs]
    obtain ⟨d, hd, hjd, hp⟩ := hpath
    exact ⟨d, hd, hjd, fun k hk => hmono _ (hp k hk)⟩
  · have hs : slot (es.set j x) i = slot es i := by rw [slot_set]; simp [hji]
    rw [hs] at hocc ⊢
    obtain ⟨d, hd, hid, hp⟩ := hr i hi hocc
    exact ⟨d, hd, hid, fun k hk => hmono _ (hp k hk)⟩

/-! ## Hash range -/

theorem hash_word_pair_lt (sc : Bool) (f s : List Byte) {n : Nat} (hn : 0 < n) :
    hash_word_pair sc f s n < n := by
  unfold hash_word_pair
  exact Nat.mod_lt _ hn

/-! ## Resizing -/

theorem probe_empty_total (es : List WordPair) (idx : Nat) (hidx : idx < es.length)
    (hroom : occupied_count es < es.length) :
    ∃ j, probe_empty es es.length idx = some j := by
  obtain ⟨j0, hj0, hfree⟩ := exists_free_slot hroom
  obtain ⟨d, hd, hdj⟩ := exists_offset hidx hj0
  exact probe_empty_some es es.length idx ⟨d, hd, by rw [hdj]; exact hfree⟩ hidx

theorem rehash_spec (sc : Bool) :
    ∀ (rest ne : List WordPair) (sz : Nat),
      occupied_count ne + occupied_count rest ≤ ne.length →
      ∃ ne', rehash sc rest (ne, sz) = some (ne', sz + occupied_count rest) ∧
        ne'.length = ne.length ∧
        List.Perm (occupied_entries ne') (occupied_entries ne ++ occupied_entries rest) ∧
        (Reach sc ne → Reach sc ne') := by
  intro rest
  induction rest with
  | nil =>
    intro ne sz _
    refine ⟨ne, ?_, rfl, ?_, fun h => h⟩
    · simp [rehash, occupied_count]
    · simp [occupied_entries]
  | cons e rest ih =>
    intro ne sz hroom
    by_cases he : e.occupied = true
    · have hcnt : occupied_count (e :: rest) = occupied_count rest + 1 := by
        simp [occupied_count, List.countP_cons, he]
      have hoe : occupied_entries (e :: rest) = e :: occupied_entries rest := by
        simp [occupied_entries, List.filter_cons, he]
      have hlt : occupied_count ne < ne.length := by omega
      have hn : 0 < ne.length := by omega
      have hidx := hash_word_pair_lt sc e.first e.second hn
      obtain ⟨j, hj⟩ := probe_empty_total ne _ hidx hlt
      obtain ⟨d, hd, hjd, hpath, hfree⟩ := probe_empty_spec ne _ _ j hidx hj
      have hjlt : j < ne.length := by rw [hjd]; exact Nat.mod_lt _ hn
      have hroom2 : occupied_count (ne.set j e) + occupied_count rest ≤ (ne.set j e).length := by
        rw [occupied_count_set_free ne j e hjlt hfree he, List.length_set]
        omega
      obtain ⟨ne', hrun, hlen, hperm, hreach⟩ := ih (ne.set j e) (sz + 1) hroom2
      refine ⟨ne', ?_, ?_, ?_, ?_⟩
      · rw [rehash, if_pos he, hj]
        simp only
        rw [hrun, hcnt]
        congr 2
        omega
      · rw [hlen, List.length_set]
      · rw [hoe]
        refine hperm.trans ?_
        refine ((occupied_entries_set_free ne j e hjlt hfree he).append_right _).trans ?_
        exact (List.perm_middle).symm
      · intro hr
        exact hreach (Reach_set sc ne j e hr hjlt he ⟨d, hd, hjd, hpath⟩)
    · have hcnt : occupied_count (e :: rest) = occupied_count rest := by
        simp [occupied_count, List.countP_cons, he]
      have hoe : occupied_entries (e :: rest) = occupied_entries rest := by
        simp [occupied_entries, List.filter_cons, he]
      obtain ⟨ne', hrun, hlen, hperm, hreach⟩ := ih ne sz (by omega)
      refine ⟨ne', ?_, hlen, ?_, hreach⟩
      · rw [rehash, if_neg he, hrun, hcnt]
      · rw [hoe]; exact hperm

theorem resize_spec (sc : Bool) (t : HashTable) :
    ∃ t', resize_hash_table sc t = some t' ∧
      t'.capacity = 2 * t.capacity ∧
      t'.size = occupied_count t.entries ∧
      List.Perm (occupied_entries t'.entries) (occupied_entries t.entries) ∧
      Reach sc t'.entries := by
  have hzero : occupied_count (List.replicate (t.capacity * 2) WordPair.zeroed) = 0 := by
    simp [occupied_count, List.countP_replicate, WordPair.zeroed]
  have hroom : occupied_count (List.replicate (t.capacity * 2) WordPair.zeroed)
      + occupied_count t.entries
      ≤ (List.replicate (t.capacity * 2) WordPair.zeroed).length := by
    rw [hzero, List.length_replicate]
    have := occupied_count_le t.entries
    unfold HashTable.capacity
    omega
  obtain ⟨ne', hrun, hlen, hperm, hreach⟩ := rehash_spec sc t.entries _ 0 hroom
  refine ⟨{ entries := ne', size := 0 + occupied_count t.entries }, ?_, ?_, ?_, ?_, ?_⟩
  · unfold resize_hash_table
    simp only
    rw [hrun]
  · unfold HashTable.capacity
    simp only
    rw [hlen, List.length_replicate]
    unfold HashTable.capacity
    omega
  · simp
  · have : occupied_entries (List.replicate (t.capacity * 2) WordPair.zeroed) = [] := by
      simp [occupied_entries, WordPair.zeroed]
    simpa [this] using hperm
  · exact hreach (Reach_replicate sc _)

/-! ## One call of `insert_or_update` -/

theorem Counted_create (c : Nat) (hc : 1 ≤ c) : Counted (create_hash_table c) := by
  constructor
  · simp [HashTable.capacity, create_hash_table]; omega
  · simp [create_hash_table, occupied_count, List.countP_replicate, WordPair.zeroed]

theorem resize_check_spec (sc : Bool) (t : HashTable) (hc : Counted t) :
    ∃ t1, resize_check sc t = some t1 ∧ Counted t1 ∧ t1.size = t.size ∧
      10 * t1.size < 7 * t1.capacity ∧
      List.Perm (occupied_entries t1.entries) (occupied_entries t.entries) ∧
      (Reach sc t.entries → Reach sc t1.entries) ∧
      (load_factor_reached t = false → t1 = t) ∧
      (load_factor_reached t = true → t1.capacity = 2 * t.capacity) := by
  have hpos := hc.cap_pos
  have hne : t.capacity ≠ 0 := by omega
  by_cases hl : load_factor_reached t = true
  · obtain ⟨t1, hrun, hcap, hsize, hperm, hreach⟩ := resize_spec sc t
    have hle := occupied_count_le t.entries
    have hsz : t1.size = t.size := by rw [hsize, hc.size_eq]
    refine ⟨t1, ?_, ⟨by omega, ?_⟩, hsz, ?_, hperm, fun _ => hreach, ?_, fun _ => hcap⟩
    · unfold resize_check; rw [if_pos hl, hrun]
    · rw [hsize, occupied_count_eq, occupied_count_eq, hperm.length_eq]
    · rw [hsz, hcap, hc.size_eq]
      unfold HashTable.capacity at hpos ⊢
      omega
    · intro h; rw [h] at hl; cases hl
  · have hl2 : load_factor_reached t = false := by simpa using hl
    refine ⟨t, ?_, hc, rfl, ?_, List.Perm.refl _, fun h => h, fun _ => rfl, ?_⟩
    · unfold resize_check; rw [if_neg hl]
    · unfold load_factor_reached at hl2
      rw [if_neg hne] at hl2
      simpa using hl2
    · intro h; rw [h] at hl2; cases hl2

theorem find_slot_spec (sc : Bool) (t : HashTable) (f s : List Byte) (hc : Counted t)
    (hroom : t.size < t.capacity) :
    ∃ j b, find_slot sc t f s = some (j, b) ∧ j < t.capacity ∧
      (∃ d, d < t.capacity ∧
        j = (hash_word_pair sc f s t.capacity + d) % t.capacity ∧
        ∀ k, k < d →
          (slot t.entries ((hash_word_pair sc f s t.capacity + k) % t.capacity)).occupied = true ∧
          same_pair f s (slot t.entries ((hash_word_pair sc f s t.capacity + k) % t.capacity))
            = false) ∧
      (slot t.entries j).occupied = b ∧
      (b = true → same_pair f s (slot t.entries j) = true) := by
  have hpos := hc.cap_pos
  have hne : t.capacity ≠ 0 := by omega
  have hidx := hash_word_pair_lt sc f s hpos
  have hlt : occupied_count t.entries < t.entries.length := by
    rw [← hc.size_eq]; exact hroom
  obtain ⟨j0, hj0, hfree⟩ := exists_free_slot hlt
  obtain ⟨d0, hd0, hdj0⟩ := exists_offset hidx hj0
  obtain ⟨⟨j, b⟩, hr⟩ := probe_insert_some t.entries f s t.capacity
    (hash_word_pair sc f s t.capacity) ⟨d0, hd0, by
      show (slot t.entries ((hash_word_pair sc f s t.capacity + d0) % t.capacity)).occupied
        = false
      rw [hdj0]; exact hfree⟩ hidx
  obtain ⟨d, hd, hjd, hpath, hocc, hsame⟩ := probe_insert_spec t.entries f s _ _ j b hidx hr
  refine ⟨j, b, ?_, ?_, ⟨d, hd, hjd, hpath⟩, hocc, hsame⟩
  · unfold find_slot; rw [if_neg hne]; exact hr
  · rw [hjd]; exact Nat.mod_lt _ hpos

theorem insert_or_update_eq (sc : Bool) (t t1 : HashTable) (f s : List Byte) (j : Nat) (b : Bool)
    (h1 : resize_check sc t = some t1) (h2 : find_slot sc t1 f s = some (j, b)) :
    insert_or_update sc t f s = some (write_slot t1 f s j b) := by
  unfold insert_or_update write_slot
  rw [h1]
  simp only
  rw [h2]
  cases b <;> simp

theorem write_slot_capacity (t : HashTable) (f s : List Byte) (j : Nat) (b : Bool) :
    (write_slot t f s j b).capacity = t.capacity := by
  unfold write_slot HashTable.capacity
  cases b <;> simp

theorem write_slot_size (t : HashTable) (f s : List Byte) (j : Nat) (b : Bool) :
    (write_slot t f s j b).size = if b then t.size else t.size + 1 := by
  unfold write_slot
  cases b <;> simp

theorem write_slot_counted (t : HashTable) (f s : List Byte) (j : Nat) (b : Bool)
    (hc : Counted t) (hj : j < t.capacity) (hocc : (slot t.entries j).occupied = b) :
    Counted (write_slot t f s j b) := by
  constructor
  · rw [write_slot_capacity]; exact hc.cap_pos
  · rw [write_slot_size]
    cases b with
    | true =>
      simp only [write_slot, if_true]
      rw [occupied_count_set_same t.entries j _ hj hocc (by simpa using hocc)]
      exact hc.size_eq
    | false =>
      simp only [write_slot, Bool.false_eq_true, if_false]
      rw [occupied_count_set_free t.entries j _ hj hocc rfl, hc.size_eq]

/-! ## Fields within the limits -/

theorem cstr_of_nulfree : ∀ (w : List Byte), NulFree w → cstr w = w
  | [], _ => rfl
  | b :: rest, h => by
    have hb : b ≠ 0 := fun hb0 => h (hb0 ▸ List.mem_cons_self _ _)
    have hrest : NulFree rest := fun hc => h (List.mem_cons_of_mem _ hc)
    simp [cstr, hb, cstr_of_nulfree rest hrest]

theorem strncpy_word_of_valid (w : List Byte) (h : valid_field w) : strncpy_word w = w := by
  unfold strncpy_word
  rw [cstr_of_nulfree w h.1]
  exact List.take_of_length_le (by simp [MAX_WORD_LENGTH]; exact h.2)

theorem same_pair_iff (f s : List Byte) (e : WordPair) (hf : NulFree f) (hs : NulFree s)
    (hef : NulFree e.first) (hes : NulFree e.second) :
    same_pair f s e = true ↔ e.first = f ∧ e.second = s := by
  unfold same_pair strcmp_eq
  rw [cstr_of_nulfree f hf, cstr_of_nulfree s hs, cstr_of_nulfree _ hef, cstr_of_nulfree _ hes]
  simp

/-! ## The table as a counting map -/

theorem slots_of_eq (es : List WordPair) (a b : List Byte) :
    slots_of es a b = es.filter (fun e => holds_pair a b e && e.occupied) := by
  unfold slots_of occupied_entries
  rw [List.filter_filter]

theorem mem_slots_of {es : List WordPair} {a b : List Byte} {e : WordPair} :
    e ∈ slots_of es a b ↔ e ∈ es ∧ e.occupied = true ∧ e.first = a ∧ e.second = b := by
  unfold slots_of occupied_entries holds_pair
  simp only [List.mem_filter, Bool.and_eq_true, decide_eq_true_eq]
  tauto

theorem slots_of_perm {es1 es2 : List WordPair}
    (h : List.Perm (occupied_entries es1) (occupied_entries es2)) (a b : List Byte) :
    List.Perm (slots_of es1 a b) (slots_of es2 a b) :=
  h.filter _

theorem TableInv_create (sc : Bool) (c : Nat) (hc : 1 ≤ c) :
    TableInv sc (fun _ => 0) (create_hash_table c) := by
  refine ⟨Counted_create c hc, Reach_replicate sc c, ?_, ?_⟩
  · intro a b
    simp [slots_of, occupied_entries, create_hash_table, WordPair.zeroed]
  · intro a b h; exact absurd rfl h

theorem TableInv_of_perm (sc : Bool) (cnt : List Byte × List Byte → Nat) (t t1 : HashTable)
    (hinv : TableInv sc cnt t) (hc1 : Counted t1) (hr1 : Reach sc t1.entries)
    (hperm : List.Perm (occupied_entries t1.entries) (occupied_entries t.entries)) :
    TableInv sc cnt t1 := by
  refine ⟨hc1, hr1, ?_, hinv.valid⟩
  intro a b
  have hp := slots_of_perm hperm a b
  rw [hinv.content a b] at hp
  split at hp
  · rw [if_pos (by assumption)]; exact List.perm_nil.mp hp
  · rw [if_neg (by assumption)]; exact List.perm_singleton.mp hp

theorem stored_entry (sc : Bool) (cnt : List Byte × List Byte → Nat) (t : HashTable)
    (hinv : TableInv sc cnt t) (i : Nat) (hi : i < t.capacity)
    (hocc : (slot t.entries i).occupied = true) :
    cnt ((slot t.entries i).first, (slot t.entries i).second) ≠ 0 ∧
    slot t.entries i =
      { first := (slot t.entries i).first, second := (slot t.entries i).second,
        count := cnt ((slot t.entries i).first, (slot t.entries i).second) % 2 ^ 32,
        occupied := true } := by
  have hmem : slot t.entries i ∈ slots_of t.entries (slot t.entries i).first
      (slot t.entries i).second :=
    mem_slots_of.mpr ⟨slot_mem hi, hocc, rfl, rfl⟩
  rw [hinv.content] at hmem
  split at hmem
  · cases hmem
  · exact ⟨by assumption, List.mem_singleton.mp hmem⟩

theorem append_eq_singleton {A B : List WordPair} {x E : WordPair}
    (h : A ++ ([x] ++ B) = [E]) : A = [] ∧ B = [] ∧ x = E := by
  cases A with
  | nil =>
    simp only [List.nil_append, List.singleton_append, List.cons.injEq] at h
    exact ⟨rfl, h.2, h.1⟩
  | cons a A =>
    have hlen := congrArg List.length h
    simp at hlen

theorem append_eq_nil_mid {A M B : List WordPair} (h : A ++ (M ++ B) = []) :
    A = [] ∧ B = [] := by
  have h1 := List.append_eq_nil.mp h
  exact ⟨h1.1, (List.append_eq_nil.mp h1.2).2⟩

theorem slots_of_split (es : List WordPair) (j : Nat) (hj : j < es.length) (a b : List Byte) :
    slots_of es a b
      = slots_of (es.take j) a b ++ (slots_of [slot es j] a b ++ slots_of (es.drop (j + 1)) a b) := by
  simp only [slots_of_eq]
  exact filter_at_slot _ es j hj

theorem slots_of_set (es : List WordPair) (j : Nat) (x : WordPair) (hj : j < es.length)
    (a b : List Byte) :
    slots_of (es.set j x) a b
      = slots_of (es.take j) a b ++ (slots_of [x] a b ++ slots_of (es.drop (j + 1)) a b) := by
  simp only [slots_of_eq]
  exact filter_set_slot _ es j x hj

theorem slots_of_singleton_pos (x : WordPair) (a b : List Byte)
    (h : x.occupied = true ∧ x.first = a ∧ x.second = b) : slots_of [x] a b = [x] := by
  simp [slots_of, occupied_entries, holds_pair, h.1, h.2.1, h.2.2]

theorem slots_of_singleton_neg (x : WordPair) (a b : List Byte)
    (h : ¬ (x.occupied = true ∧ x.first = a ∧ x.second = b)) : slots_of [x] a b = [] := by
  by_contra hne
  obtain ⟨e, he⟩ := List.exists_mem_of_ne_nil _ hne
  have := mem_slots_of.mp he
  rw [List.mem_singleton] at this
  obtain ⟨rfl, h2⟩ := this
  exact h h2

theorem bump_self (cnt : List Byte × List Byte → Nat) (k : List Byte × List Byte) :
    bump cnt k k = cnt k + 1 := by
  simp [bump]

theorem bump_other (cnt : List Byte × List Byte → Nat) (k k2 : List Byte × List Byte)
    (h : k2 ≠ k) : bump cnt k k2 = cnt k2 := by
  simp [bump, h]

theorem bump_valid (cnt : List Byte × List Byte → Nat) (f s : List Byte)
    (hv : ∀ a b, cnt (a, b) ≠ 0 → valid_field a ∧ valid_field b)
    (hf : valid_field f) (hs : valid_field s) :
    ∀ a b, bump cnt (f, s) (a, b) ≠ 0 → valid_field a ∧ valid_field b := by
  intro a b h
  by_cases hk : (a, b) = (f, s)
  · cases hk; exact ⟨hf, hs⟩
  · rw [bump_other cnt _ _ hk] at h; exact hv a b h

/-- The probe stopped on a slot that holds the pair: its count goes up by one. -/
theorem TableInv_found (sc : Bool) (cnt : List Byte × List Byte → Nat) (t : HashTable)
    (f s : List Byte) (j : Nat) (hinv : TableInv sc cnt t) (hf : valid_field f)
    (hs : valid_field s) (hj : j < t.capacity) (hocc : (slot t.entries j).occupied = true)
    (hsame : same_pair f s (slot t.entries j) = true) :
    TableInv sc (bump cnt (f, s)) (write_slot t f s j true) := by
  obtain ⟨hne, hE⟩ := stored_entry sc cnt t hinv j hj hocc
  obtain ⟨hvf, hvs⟩ := hinv.valid _ _ hne
  obtain ⟨hef, hes⟩ := (same_pair_iff f s _ hf.1 hs.1 hvf.1 hvs.1).mp hsame
  rw [hef, hes] at hne hE
  refine ⟨write_slot_counted t f s j true hinv.counted hj hocc, ?_, ?_,
    bump_valid cnt f s hinv.valid hf hs⟩
  · simp only [write_slot, if_true]
    apply Reach_set sc t.entries j _ hinv.reach hj
    · exact hocc
    · exact hinv.reach j hj hocc
  · intro a b
    simp only [write_slot, if_true]
    rw [slots_of_set t.entries j _ hj]
    have hold := hinv.content a b
    rw [slots_of_split t.entries j hj] at hold
    by_cases hk : (a, b) = (f, s)
    · cases hk
      rw [bump_self, if_neg (Nat.succ_ne_zero _)]
      rw [if_neg hne, slots_of_singleton_pos _ f s ⟨hocc, hef, hes⟩] at hold
      obtain ⟨hA, hB, _⟩ := append_eq_singleton hold
      have hnew := slots_of_singleton_pos
        { slot t.entries j with count := ((slot t.entries j).count + 1) % 2 ^ 32 } f s
        ⟨hocc, hef, hes⟩
      rw [hA, hB, hnew]
      rw [hE]
      simp only [List.nil_append, List.append_nil, List.cons.injEq, WordPair.mk.injEq, and_true,
        true_and]
      omega
    · rw [bump_other cnt _ _ hk]
      have hnk : ¬ ((slot t.entries j).first = a ∧ (slot t.entries j).second = b) := by
        rintro ⟨h1, h2⟩
        apply hk
        rw [← h1, ← h2, hef, hes]
      have hnew := slots_of_singleton_neg
        { slot t.entries j with count := ((slot t.entries j).count + 1) % 2 ^ 32 } a b
        (fun h => hnk h.2)
      rw [← hold, hnew, slots_of_singleton_neg (slot t.entries j) a b (fun h => hnk h.2)]

/-- The probe stopped on a free slot: the pair was absent and is entered with count one. -/
theorem TableInv_new (sc : Bool) (cnt : List Byte × List Byte → Nat) (t : HashTable)
    (f s : List Byte) (j : Nat) (hinv : TableInv sc cnt t) (hf : valid_field f)
    (hs : valid_field s) (hj : j < t.capacity) (hfree : (slot t.entries j).occupied = false)
    (hpath : ∃ d, d < t.capacity ∧
        j = (hash_word_pair sc f s t.capacity + d) % t.capacity ∧
        ∀ k, k < d →
          (slot t.entries ((hash_word_pair sc f s t.capacity + k) % t.capacity)).occupied = true ∧
          same_pair f s (slot t.entries ((hash_word_pair sc f s t.capacity + k) % t.capacity))
            = false) :
    TableInv sc (bump cnt (f, s)) (write_slot t f s j false) := by
  obtain ⟨d, hd, hjd, hp⟩ := hpath
  have hzero : cnt (f, s) = 0 := by
    by_contra hne
    have hc := hinv.content f s
    rw [if_neg hne] at hc
    have hmem : ({ first := f, second := s, count := cnt (f, s) % 2 ^ 32, occupied := true }
        : WordPair) ∈ slots_of t.entries f s := by rw [hc]; exact List.mem_singleton.mpr rfl
    obtain ⟨hin, _⟩ := mem_slots_of.mp hmem
    obtain ⟨i, hi, hiE⟩ := List.getElem_of_mem hin
    have hsl : slot t.entries i
        = { first := f, second := s, count := cnt (f, s) % 2 ^ 32, occupied := true } := by
      rw [slot_of_lt hi]; exact hiE
    have hiocc : (slot t.entries i).occupied = true := by rw [hsl]
    obtain ⟨di, hdi, hidi, hpi⟩ := hinv.reach i hi hiocc
    rw [hsl] at hidi hpi
    simp only at hidi hpi
    have hsameE : same_pair f s (slot t.entries i) = true := by
      rw [hsl]; simp [same_pair, strcmp_eq]
    rcases Nat.lt_trichotomy di d with hlt | heq | hgt
    · have h2 := (hp di hlt).2
      have hidx : (hash_word_pair sc f s t.capacity + di) % t.capacity = i := hidi.symm
      rw [hidx, hsameE] at h2
      cases h2
    · subst heq
      have hji : j = i := by rw [hjd]; exact hidi.symm
      rw [hji, hiocc] at hfree
      cases hfree
    · have h2 := hpi d hgt
      have hidx : (hash_word_pair sc f s t.entries.length + d) % t.entries.length = j :=
        hjd.symm
      rw [hidx, hfree] at h2
      cases h2
  have hwf := strncpy_word_of_valid f hf
  have hws := strncpy_word_of_valid s hs
  refine ⟨write_slot_counted t f s j false hinv.counted hj hfree, ?_, ?_,
    bump_valid cnt f s hinv.valid hf hs⟩
  · simp only [write_slot, Bool.false_eq_true, if_false]
    apply Reach_set sc t.entries j _ hinv.reach hj rfl
    simp only [hwf, hws]
    exact ⟨d, hd, hjd, fun k hk => (hp k hk).1⟩
  · intro a b
    simp only [write_slot, Bool.false_eq_true, if_false, hwf, hws]
    rw [slots_of_set t.entries j _ hj]
    have hold := hinv.content a b
    rw [slots_of_split t.entries j hj,
      slots_of_singleton_neg (slot t.entries j) a b (by rw [hfree]; simp)] at hold
    by_cases hk : (a, b) = (f, s)
    · cases hk
      rw [bump_self, if_neg (Nat.succ_ne_zero _), hzero]
      rw [if_pos hzero] at hold
      obtain ⟨hA, hB⟩ := append_eq_nil_mid hold
      rw [hA, hB, slots_of_singleton_pos _ f s ⟨rfl, rfl, rfl⟩]
      rfl
    · rw [bump_other cnt _ _ hk, ← hold]
      have hnk : ¬ (f = a ∧ s = b) := by
        rintro ⟨h1, h2⟩
        apply hk
        rw [← h1, ← h2]
      rw [slots_of_singleton_neg _ a b (fun h => hnk h.2)]

/-- One call with fields within the limits keeps the table a counting map. -/
theorem insert_or_update_inv (sc : Bool) (cnt : List Byte × List Byte → Nat) (t : HashTable)
    (f s : List Byte) (hinv : TableInv sc cnt t) (hf : valid_field f) (hs : valid_field s) :
    ∃ t2, insert_or_update sc t f s = some t2 ∧ TableInv sc (bump cnt (f, s)) t2 := by
  obtain ⟨t1, h1, hc1, hsz, hload, hperm, hreach, _, _⟩ := resize_check_spec sc t hinv.counted
  have hinv1 : TableInv sc cnt t1 := TableInv_of_perm sc cnt t t1 hinv hc1 (hreach hinv.reach) hperm
  have hroom : t1.size < t1.capacity := by omega
  obtain ⟨j, b, h2, hj, hpath, hocc, hsame⟩ := find_slot_spec sc t1 f s hc1 hroom
  refine ⟨write_slot t1 f s j b, insert_or_update_eq sc t t1 f s j b h1 h2, ?_⟩
  cases b with
  | true => exact TableInv_found sc cnt t1 f s j hinv1 hf hs hj hocc (hsame rfl)
  | false => exact TableInv_new sc cnt t1 f s j hinv1 hf hs hj hocc hpath

theorem upserts_inv (sc : Bool) :
    ∀ (calls : List (List Byte × List Byte)) (cnt : List Byte × List Byte → Nat) (t : HashTable),
      TableInv sc cnt t → valid_calls calls →
      ∃ t2, upserts sc t calls = some t2 ∧ TableInv sc (fun k => cnt k + calls.count k) t2 := by
  intro calls
  induction calls with
  | nil =>
    intro cnt t hinv _
    exact ⟨t, rfl, by simpa using hinv⟩
  | cons c rest ih =>
    intro cnt t hinv hv
    obtain ⟨f, s⟩ := c
    have hc := hv (f, s) (List.mem_cons_self _ _)
    obtain ⟨t1, h1, hinv1⟩ := insert_or_update_inv sc cnt t f s hinv hc.1 hc.2
    obtain ⟨t2, h2, hinv2⟩ := ih (bump cnt (f, s)) t1 hinv1
      (fun c hcm => hv c (List.mem_cons_of_mem _ hcm))
    refine ⟨t2, ?_, ?_⟩
    · simp only [upserts, h1]; exact h2
    · have hfun : (fun k => bump cnt (f, s) k + List.count k rest)
          = (fun k => cnt k + List.count k ((f, s) :: rest)) := by
        funext k
        rw [List.count_cons]
        unfold bump
        by_cases hk : k = (f, s)
        · subst hk; simp; omega
        · have hk2 : ((f, s) == k) = false := by
            simp only [beq_eq_false_iff_ne, ne_eq]
            exact fun h => hk h.symm
          simp [hk, hk2]
      rw [← hfun]; exact hinv2

theorem upserts_from_empty (sc : Bool) (c : Nat) (hc : 1 ≤ c)
    (calls : List (List Byte × List Byte)) (hv : valid_calls calls) :
    ∃ t, upserts sc (create_hash_table c) calls = some t ∧
      TableInv sc (fun k => calls.count k) t := by
  obtain ⟨t, h, hinv⟩ := upserts_inv sc calls (fun _ => 0) _ (TableInv_create sc c hc) hv
  exact ⟨t, h, by simpa using hinv⟩

/-! ## Call sequences without a condition on the fields -/

/-- The effect of one call on capacity and size, for any two strings. -/
theorem insert_or_update_shape (sc : Bool) (t : HashTable) (f s : List Byte) (hc : Counted t) :
    ∃ t1 j b, resize_check sc t = some t1 ∧ find_slot sc t1 f s = some (j, b) ∧
      insert_or_update sc t f s = some (write_slot t1 f s j b) ∧
      Counted (write_slot t1 f s j b) ∧
      t1.size = t.size ∧ 10 * t1.size < 7 * t1.capacity ∧
      (load_factor_reached t = false → t1 = t) ∧
      (load_factor_reached t = true → t1.capacity = 2 * t.capacity) ∧
      (slot t1.entries j).occupied = b ∧
      (b = true → same_pair f s (slot t1.entries j) = true) := by
  obtain ⟨t1, h1, hc1, hsz, hload, _, _, hno, hyes⟩ := resize_check_spec sc t hc
  have hroom : t1.size < t1.capacity := by omega
  obtain ⟨j, b, h2, hj, _, hocc, hsame⟩ := find_slot_spec sc t1 f s hc1 hroom
  exact ⟨t1, j, b, h1, h2, insert_or_update_eq sc t t1 f s j b h1 h2,
    write_slot_counted t1 f s j b hc1 hj hocc, hsz, hload, hno, hyes, hocc, hsame⟩

/-- A property kept by every call is kept by every sequence of calls, and every sequence of
calls on a counted table returns. -/
theorem upserts_keep (sc : Bool) (P : HashTable → Prop)
    (hstep : ∀ t f s t2, Counted t → P t → insert_or_update sc t f s = some t2 → P t2) :
    ∀ (calls : List (List Byte × List Byte)) (t : HashTable), Counted t → P t →
      ∃ t2, upserts sc t calls = some t2 ∧ Counted t2 ∧ P t2 := by
  intro calls
  induction calls with
  | nil => intro t hc hp; exact ⟨t, rfl, hc, hp⟩
  | cons c rest ih =>
    intro t hc hp
    obtain ⟨f, s⟩ := c
    obtain ⟨t1, j, b, _, _, hrun, hc2, _⟩ := insert_or_update_shape sc t f s hc
    obtain ⟨t2, h2, hc3, hp3⟩ := ih _ hc2 (hstep t f s _ hc hp hrun)
    refine ⟨t2, ?_, hc3, hp3⟩
    simp only [upserts, hrun]; exact h2

theorem load_bound_step (sc : Bool) (t : HashTable) (f s : List Byte) (t2 : HashTable)
    (hc : Counted t) (h : insert_or_update sc t f s = some t2) :
    load_bound t2 ∧ (t2.capacity = t.capacity ∨ t2.capacity = 2 * t.capacity) := by
  obtain ⟨t1, j, b, _, _, hrun, _, hsz, hload, hno, hyes, _, _⟩ :=
    insert_or_update_shape sc t f s hc
  rw [hrun] at h
  cases h
  have hcap := write_slot_capacity t1 f s j b
  have hsize := write_slot_size t1 f s j b
  have hle : (write_slot t1 f s j b).size ≤ t1.size + 1 := by
    rw [hsize]; split <;> omega
  refine ⟨⟨by rw [hcap]; omega, ?_⟩, ?_⟩
  · rw [hcap]
    intro hdvd
    obtain ⟨m, hm⟩ := hdvd
    rw [hm] at hload ⊢
    omega
  · rw [hcap]
    cases hl : load_factor_reached t with
    | false => left; rw [hno hl]
    | true => right; exact hyes hl

/-! ## Reading and splitting one record -/

theorem fgets_loop_line :
    ∀ (l tail : List Byte) (n : Nat), (10 : Byte) ∉ l → l.length < n →
      fgets_loop n (l ++ 10 :: tail) = (l ++ [10], tail)
  | [], tail, n, _, hn => by
    obtain ⟨m, rfl⟩ : ∃ m, n = m + 1 := ⟨n - 1, by simp at hn; omega⟩
    simp [fgets_loop]
  | b :: rest, tail, n, hnl, hn => by
    obtain ⟨m, rfl⟩ : ∃ m, n = m + 1 := ⟨n - 1, by simp at hn; omega⟩
    have hb : b ≠ 10 := fun hb0 => hnl (hb0 ▸ List.mem_cons_self _ _)
    have hrest : (10 : Byte) ∉ rest := fun hc => hnl (List.mem_cons_of_mem _ hc)
    have hlen : rest.length < m := by simp at hn; omega
    show fgets_loop (m + 1) (b :: (rest ++ 10 :: tail)) = (b :: (rest ++ [10]), tail)
    rw [fgets_loop, if_neg hb, fgets_loop_line rest tail m hrest hlen]

theorem fgets_line (l tail : List Byte) (hnl : (10 : Byte) ∉ l) (hlen : l.length ≤ 1022) :
    fgets MAX_LINE_LENGTH (l ++ 10 :: tail) = some (l ++ [10], tail) := by
  have h := fgets_loop_line l tail (MAX_LINE_LENGTH - 1) hnl (by simp [MAX_LINE_LENGTH]; omega)
  unfold fgets
  cases l with
  | nil => simp only [List.nil_append] at h ⊢; rw [h]
  | cons b rest => simp only [List.cons_append] at h ⊢; rw [h]

theorem NulFree_append {l1 l2 : List Byte} (h1 : NulFree l1) (h2 : NulFree l2) :
    NulFree (l1 ++ l2) := by
  unfold NulFree at *
  simp [h1, h2]

theorem strip_newline_line (l : List Byte) (hnul : NulFree l) :
    strip_newline (l ++ [10]) = l := by
  unfold strip_newline
  rw [cstr_of_nulfree _ (NulFree_append hnul (by decide))]
  simp

theorem strip_newline_last (l : List Byte) (hnul : NulFree l) (hnl : (10 : Byte) ∉ l) :
    strip_newline l = l := by
  unfold strip_newline
  rw [cstr_of_nulfree _ hnul]
  have : l.getLast? ≠ some 10 := by
    intro h
    exact hnl (List.mem_of_getLast?_eq_some h)
  rw [if_neg this]

theorem takeWhile_field (f rest : List Byte) (hcomma : (44 : Byte) ∉ f) :
    (f ++ 44 :: rest).takeWhile (fun b => decide (b ≠ 44)) = f := by
  induction f with
  | nil => simp
  | cons b f ih =>
    have hb : b ≠ 44 := fun hb0 => hcomma (hb0 ▸ List.mem_cons_self _ _)
    have hrest : (44 : Byte) ∉ f := fun hc => hcomma (List.mem_cons_of_mem _ hc)
    rw [List.cons_append, List.takeWhile_cons, if_pos (by simpa using hb), ih hrest]

theorem takeWhile_no_comma (l : List Byte) (hcomma : (44 : Byte) ∉ l) :
    l.takeWhile (fun b => decide (b ≠ 44)) = l := by
  induction l with
  | nil => rfl
  | cons b l ih =>
    have hb : b ≠ 44 := fun hb0 => hcomma (hb0 ▸ List.mem_cons_self _ _)
    have hrest : (44 : Byte) ∉ l := fun hc => hcomma (List.mem_cons_of_mem _ hc)
    rw [List.takeWhile_cons, if_pos (by simpa using hb), ih hrest]

theorem scan_field_first (f rest : List Byte) (hne : f ≠ []) (hcomma : (44 : Byte) ∉ f)
    (hlen : f.length ≤ 255) :
    scan_field (f ++ 44 :: rest) = some (f, 44 :: rest) := by
  unfold scan_field
  rw [takeWhile_field f rest hcomma, List.take_of_length_le hlen, if_neg hne]
  simp

theorem sscanf_pair_split (f rest : List Byte) (hne : f ≠ []) (hcomma : (44 : Byte) ∉ f)
    (hlen : f.length ≤ 255) (hnul : NulFree (f ++ 44 :: rest))
    (hsecond : rest.takeWhile (fun b => decide (b ≠ 44)) ≠ []) :
    sscanf_pair (f ++ 44 :: rest)
      = some (f, (rest.takeWhile (fun b => decide (b ≠ 44))).take 255) := by
  have htake : (rest.takeWhile (fun b => decide (b ≠ 44))).take 255 ≠ [] := by
    intro h
    apply hsecond
    cases hr : rest.takeWhile (fun b => decide (b ≠ 44)) with
    | nil => rfl
    | cons x xs => rw [hr] at h; simp at h
  unfold sscanf_pair
  rw [cstr_of_nulfree _ hnul, scan_field_first f rest hne hcomma hlen]
  simp only [if_true]
  unfold scan_field
  rw [if_neg htake]

theorem sscanf_pair_no_comma (l : List Byte) (hnul : NulFree l) (hcomma : (44 : Byte) ∉ l) :
    sscanf_pair l = none := by
  unfold sscanf_pair
  rw [cstr_of_nulfree _ hnul]
  unfold scan_field
  rw [takeWhile_no_comma l hcomma]
  by_cases h : l.take 255 = []
  · rw [if_pos h]
  · rw [if_neg h]
    simp only
    cases hd : l.drop (l.take 255).length with
    | nil => rfl
    | cons c rest2 =>
      have hc : c ∈ l := List.mem_of_mem_drop (by rw [hd]; exact List.mem_cons_self _ _)
      have : c ≠ 44 := fun h44 => hcomma (h44 ▸ hc)
      simp [this]

theorem parse_record_split (l f rest : List Byte) (hl : strip_newline l = f ++ 44 :: rest)
    (hne : f ≠ []) (hcomma : (44 : Byte) ∉ f) (hlen : f.length ≤ 255)
    (hnul : NulFree (f ++ 44 :: rest))
    (hsecond : rest.takeWhile (fun b => decide (b ≠ 44)) ≠ []) :
    parse_record l = some (f, (rest.takeWhile (fun b => decide (b ≠ 44))).take 255) := by
  unfold parse_record
  rw [hl, if_neg (by simp), sscanf_pair_split f rest hne hcomma hlen hnul hsecond]

theorem parse_record_skip (l r : List Byte) (hl : strip_newline l = r) (hnul : NulFree r)
    (h : r = [] ∨ (44 : Byte) ∉ r) : parse_record l = none := by
  unfold parse_record
  rw [hl]
  by_cases hr : r = []
  · rw [if_pos hr]
  · rw [if_neg hr]
    rcases h with h | h
    · exact absurd h hr
    · exact sscanf_pair_no_comma r hnul h

theorem two_slots (es : List WordPair) (a b : List Byte) (i j : Nat) (hij : i < j)
    (hj : j < es.length) (hoi : (slot es i).occupied = true) (hoj : (slot es j).occupied = true)
    (hi1 : (slot es i).first = a) (hi2 : (slot es i).second = b)
    (hj1 : (slot es j).first = a) (hj2 : (slot es j).second = b) :
    2 ≤ (slots_of es a b).length := by
  rw [slots_of_split es j hj, slots_of_singleton_pos _ a b ⟨hoj, hj1, hj2⟩]
  have hmem : slot es i ∈ slots_of (es.take j) a b := by
    refine mem_slots_of.mpr ⟨?_, hoi, hi1, hi2⟩
    have hi : i < es.length := by omega
    have hit : i < (es.take j).length := by rw [List.length_take]; omega
    have : (es.take j)[i] = slot es i := by
      rw [slot_of_lt hi, List.getElem_take]
    rw [← this]
    exact List.getElem_mem hit
  have := List.length_pos_of_mem hmem
  simp only [List.length_append, List.length_cons, List.length_nil]
  omega

theorem unique_slot (sc : Bool) (cnt : List Byte × List Byte → Nat) (t : HashTable)
    (hinv : TableInv sc cnt t) (i j : Nat) (hij : i < j) (hj : j < t.capacity)
    (hoi : (slot t.entries i).occupied = true) (hoj : (slot t.entries j).occupied = true)
    (h1 : (slot t.entries i).first = (slot t.entries j).first)
    (h2 : (slot t.entries i).second = (slot t.entries j).second) : False := by
  have h := two_slots t.entries _ _ i j hij hj hoi hoj h1 h2 rfl rfl
  rw [hinv.content] at h
  split at h <;> simp at h

/-! ## The hash as a fold -/

theorem wrap_add (M : Nat) (hM : 0 < M) (h : Nat) (c : Int) :
    ((h * 32 % M + h) % M + (c % (M : Int)).toNat) % M
      = (((h : Int) * 33 + c) % (M : Int)).toNat := by
  have hMi : (0 : Int) < (M : Int) := by exact_mod_cast hM
  have hc : (0 : Int) ≤ c % (M : Int) := Int.emod_nonneg _ (ne_of_gt hMi)
  apply Int.ofNat.inj
  rw [Int.ofNat_eq_coe, Int.ofNat_eq_coe, Int.toNat_of_nonneg (Int.emod_nonneg _ (ne_of_gt hMi))]
  push_cast
  rw [Int.toNat_of_nonneg hc]
  rw [Int.add_emod, Int.emod_emod, Int.emod_emod, ← Int.add_emod, add_assoc, Int.emod_add_emod]
  congr 1
  ring

theorem hash_step_eq (sc : Bool) (h : Nat) (b : Byte) :
    hash_step sc h b = (((h : Int) * 33 + char_to_int sc b) % 2 ^ 64).toNat := by
  unfold hash_step to_uint64
  rw [Nat.shiftLeft_eq]
  have := wrap_add (2 ^ 64) (Nat.pos_pow_of_pos 64 (by decide)) h (char_to_int sc b)
  simpa using this

theorem char_to_int_unsigned (sc : Bool) (b : Byte) (h : sc = false ∨ b.val < 128) :
    char_to_int sc b = (b.val : Int) := by
  unfold char_to_int
  rcases h with h | h
  · simp [h]
  · have : ¬ (128 ≤ b.val) := by omega
    simp [this]

theorem hash_step_unsigned (sc : Bool) (h : Nat) (b : Byte) (hb : sc = false ∨ b.val < 128) :
    hash_step sc h b = (h * 33 + b.val) % 2 ^ 64 := by
  rw [hash_step_eq, char_to_int_unsigned sc b hb]
  have hcast : ((h : Int) * 33 + (b.val : Int)) % 2 ^ 64
      = (((h * 33 + b.val) % 2 ^ 64 : Nat) : Int) := by
    push_cast; rfl
  rw [hcast, Int.toNat_ofNat]

theorem hash_loop_eq_foldl (sc : Bool) :
    ∀ (w : List Byte) (h : Nat), NulFree w → hash_loop sc h w = w.foldl (hash_step sc) h
  | [], _, _ => rfl
  | b :: rest, h, hw => by
    have hb : b ≠ 0 := fun hb0 => hw (hb0 ▸ List.mem_cons_self _ _)
    have hrest : NulFree rest := fun hc => hw (List.mem_cons_of_mem _ hc)
    simp only [hash_loop, hb, if_false, List.foldl_cons]
    exact hash_loop_eq_foldl sc rest _ hrest

theorem hash_word_pair_eq_foldl (sc : Bool) (f s : List Byte) (n : Nat) (hf : NulFree f)
    (hs : NulFree s) :
    hash_word_pair sc f s n = (f ++ s).foldl (hash_step sc) 5381 % n := by
  unfold hash_word_pair
  rw [hash_loop_eq_foldl sc f _ hf, hash_loop_eq_foldl sc s _ hs, List.foldl_append]

theorem foldl_congr_mem {α β : Type} (g1 g2 : β → α → β) :
    ∀ (l : List α) (init : β), (∀ h, ∀ c ∈ l, g1 h c = g2 h c) →
      l.foldl g1 init = l.foldl g2 init
  | [], _, _ => rfl
  | c :: rest, init, heq => by
    simp only [List.foldl_cons]
    rw [heq init c (List.mem_cons_self _ _)]
    exact foldl_congr_mem g1 g2 rest _ (fun h c hc => heq h c (List.mem_cons_of_mem _ hc))

/-! ## The claims -/

/-- C1, count correctness of `insert_or_update`: from the empty table of any capacity of at
least one, after any sequence of fewer than `2^32` calls whose fields are NUL-free and at
most 255 bytes long, the calls return a table in which every pair of the sequence is held by
exactly one occupied slot, with the number of its calls as count, and no other pair is held
by an occupied slot. -/
theorem C1_count_correctness (sc : Bool) (capacity : Nat)
    (calls : List (List Byte × List Byte)) (hcap : 1 ≤ capacity) (hvalid : valid_calls calls)
    (hlen : calls.length < 2 ^ 32) :
    ∃ t, upserts sc (create_hash_table capacity) calls = some t ∧
      ∀ a b, slots_of t.entries a b =
        if (a, b) ∈ calls then
          [{ first := a, second := b, count := calls.count (a, b), occupied := true }]
        else [] := by
  obtain ⟨t, hrun, hinv⟩ := upserts_from_empty sc capacity hcap calls hvalid
  refine ⟨t, hrun, ?_⟩
  intro a b
  rw [hinv.content a b]
  by_cases hmem : (a, b) ∈ calls
  · have hpos : List.count (a, b) calls ≠ 0 := by
      intro h0; exact (List.count_eq_zero.mp h0) hmem
    have hle : List.count (a, b) calls ≤ calls.length := List.count_le_length _ _
    rw [if_neg hpos, if_pos hmem, Nat.mod_eq_of_lt (by omega)]
  · rw [if_pos (List.count_eq_zero.mpr hmem), if_neg hmem]

theorem C1_count_correctness_witness :
    (1 ≤ 1 ∧ valid_calls [([99], [100]), ([102], [98]), ([99], [100])] ∧
      [(([99] : List Byte), ([100] : List Byte)), ([102], [98]), ([99], [100])].length < 2 ^ 32) ∧
    ∃ t, upserts true (create_hash_table 1) [([99], [100]), ([102], [98]), ([99], [100])]
        = some t ∧
      ∀ a b, slots_of t.entries a b =
        if (a, b) ∈ [(([99] : List Byte), ([100] : List Byte)), ([102], [98]), ([99], [100])] then
          [{ first := a, second := b,
             count := [(([99] : List Byte), ([100] : List Byte)), ([102], [98]),
               ([99], [100])].count (a, b),
             occupied := true }]
        else [] :=
  ⟨⟨by decide, by decide, by decide⟩,
    C1_count_correctness true 1 [([99], [100]), ([102], [98]), ([99], [100])]
      (by decide) (by decide) (by decide)⟩

/-- C2, order invariance: two call sequences that are permutations of one another, with
NUL-free fields of at most 255 bytes, started on empty tables of the same capacity of at least
one, end in tables that hold the same entry, with the same count, for every pair. -/
theorem C2_order_invariance (sc : Bool) (capacity : Nat)
    (calls1 calls2 : List (List Byte × List Byte)) (hcap : 1 ≤ capacity)
    (hvalid : valid_calls calls1) (hperm : List.Perm calls1 calls2) :
    ∃ t1 t2, upserts sc (create_hash_table capacity) calls1 = some t1 ∧
      upserts sc (create_hash_table capacity) calls2 = some t2 ∧
      ∀ a b, slots_of t1.entries a b = slots_of t2.entries a b := by
  have hvalid2 : valid_calls calls2 := fun c hc => hvalid c (hperm.mem_iff.mpr hc)
  obtain ⟨t1, hrun1, hinv1⟩ := upserts_from_empty sc capacity hcap calls1 hvalid
  obtain ⟨t2, hrun2, hinv2⟩ := upserts_from_empty sc capacity hcap calls2 hvalid2
  refine ⟨t1, t2, hrun1, hrun2, ?_⟩
  intro a b
  have hcount : List.count (a, b) calls1 = List.count (a, b) calls2 := hperm.countP_eq _
  rw [hinv1.content a b, hinv2.content a b, hcount]

theorem C2_order_invariance_witness :
    (1 ≤ 2 ∧ valid_calls [([99], [100]), ([102], [98]), ([99], [100])] ∧
      List.Perm [(([99] : List Byte), ([100] : List Byte)), ([102], [98]), ([99], [100])]
        [([102], [98]), ([99], [100]), ([99], [100])]) ∧
    ∃ t1 t2,
      upserts true (create_hash_table 2) [([99], [100]), ([102], [98]), ([99], [100])]
        = some t1 ∧
      upserts true (create_hash_table 2) [([102], [98]), ([99], [100]), ([99], [100])]
        = some t2 ∧
      ∀ a b, slots_of t1.entries a b = slots_of t2.entries a b :=
  ⟨⟨by decide, by decide, by decide⟩,
    C2_order_invariance true 2 [([99], [100]), ([102], [98]), ([99], [100])]
      [([102], [98]), ([99], [100]), ([99], [100])] (by decide) (by decide) (by decide)⟩

/-- C4, key uniqueness: in every table reached from an empty table of capacity at least one
by calls with NUL-free fields of at most 255 bytes, two occupied slots that hold the same
pair are the same slot. -/
theorem C4_key_uniqueness (sc : Bool) (capacity : Nat) (calls : List (List Byte × List Byte))
    (t : HashTable) (hcap : 1 ≤ capacity) (hvalid : valid_calls calls)
    (hrun : upserts sc (create_hash_table capacity) calls = some t)
    (i j : Nat) (hi : i < t.capacity) (hj : j < t.capacity)
    (hoi : (slot t.entries i).occupied = true) (hoj : (slot t.entries j).occupied = true)
    (hfirst : (slot t.entries i).first = (slot t.entries j).first)
    (hsecond : (slot t.entries i).second = (slot t.entries j).second) : i = j := by
  obtain ⟨t2, hrun2, hinv⟩ := upserts_from_empty sc capacity hcap calls hvalid
  rw [hrun] at hrun2
  cases hrun2
  rcases Nat.lt_trichotomy i j with hlt | heq | hgt
  · exact (unique_slot sc _ t hinv i j hlt hj hoi hoj hfirst hsecond).elim
  · exact heq
  · exact (unique_slot sc _ t hinv j i hgt hi hoj hoi hfirst.symm hsecond.symm).elim

theorem C4_key_uniqueness_witness :
    (1 ≤ 1 ∧ valid_calls [([99], [100]), ([102], [98])] ∧
      upserts true (create_hash_table 1) [([99], [100]), ([102], [98])]
        = some
          { entries := [{ first := [99], second := [100], count := 1, occupied := true },
              { first := [102], second := [98], count := 1, occupied := true }],
            size := 2 }) ∧
    (1 : Nat) = 1 :=
  ⟨⟨by decide, by decide, by decide⟩,
    C4_key_uniqueness true 1 [([99], [100]), ([102], [98])]
      { entries := [{ first := [99], second := [100], count := 1, occupied := true },
          { first := [102], second := [98], count := 1, occupied := true }],
        size := 2 }
      (by decide) (by decide) (by decide) 1 1 (by decide) (by decide) (by decide) (by decide)
      (by decide) (by decide)⟩

/-- C5 as stated fails: one call on the empty table of capacity one leaves one entry in one
slot, a load of 1. -/
theorem C5_load_factor_counterexample :
    ∃ t, upserts true (create_hash_table 1) [([97], [98])] = some t ∧
      ¬ (10 * t.size ≤ 7 * t.capacity) :=
  ⟨{ entries := [{ first := [97], second := [98], count := 1, occupied := true }], size := 1 },
    by decide, by decide⟩

/-- C5 amended, load after every call: for every initial capacity of at least one and every
sequence of calls, the calls return a table with `10 * size ≤ 7 * capacity + 9`, and with
`10 * size ≤ 7 * capacity` when the initial capacity is a multiple of ten. -/
theorem C5_load_factor (sc : Bool) (capacity : Nat) (calls : List (List Byte × List Byte))
    (hcap : 1 ≤ capacity) :
    ∃ t, upserts sc (create_hash_table capacity) calls = some t ∧
      10 * t.size ≤ 7 * t.capacity + 9 ∧
      (10 ∣ capacity → 10 * t.size ≤ 7 * t.capacity) := by
  have hstart : load_bound (create_hash_table capacity) ∧
      capacity ∣ (create_hash_table capacity).capacity := by
    refine ⟨⟨?_, ?_⟩, ?_⟩ <;> simp [create_hash_table, HashTable.capacity]
  obtain ⟨t, hrun, _, hload, hdvd⟩ := upserts_keep sc
    (fun t => load_bound t ∧ capacity ∣ t.capacity)
    (fun t f s t2 hc hp h => by
      obtain ⟨hl, hcap2⟩ := load_bound_step sc t f s t2 hc h
      refine ⟨hl, ?_⟩
      rcases hcap2 with h1 | h1
      · rw [h1]; exact hp.2
      · rw [h1]; exact Dvd.dvd.mul_left hp.2 2)
    calls (create_hash_table capacity) (Counted_create capacity hcap) hstart
  exact ⟨t, hrun, hload.1, fun h10 => hload.2 (Dvd.dvd.trans h10 hdvd)⟩

theorem C5_load_factor_witness :
    1 ≤ 3 ∧
    ∃ t, upserts true (create_hash_table 3) [([97], [98]), ([98], [97]), ([99], [97])] = some t ∧
      10 * t.size ≤ 7 * t.capacity + 9 ∧
      (10 ∣ 3 → 10 * t.size ≤ 7 * t.capacity) :=
  ⟨by decide, C5_load_factor true 3 [([97], [98]), ([98], [97]), ([99], [97])] (by decide)⟩

/-- C6, resize correctness: on every table whose size is its number of occupied slots,
`resize_hash_table` returns a table of exactly twice the capacity and of the same size, whose
occupied slots hold the same multiset of triples `(first, second, count)`. -/
theorem C6_resize_correctness (sc : Bool) (t : HashTable)
    (hsize : t.size = occupied_count t.entries) :
    ∃ t2, resize_hash_table sc t = some t2 ∧ t2.capacity = 2 * t.capacity ∧
      t2.size = t.size ∧
      Multiset.ofList ((occupied_entries t2.entries).map triple)
        = Multiset.ofList ((occupied_entries t.entries).map triple) := by
  obtain ⟨t2, hrun, hcap, hsz, hperm, _⟩ := resize_spec sc t
  refine ⟨t2, hrun, hcap, by rw [hsz, hsize], ?_⟩
  exact Multiset.coe_eq_coe.mpr (hperm.map triple)

theorem C6_resize_correctness_witness :
    (2 : Nat) = occupied_count
      [{ first := [99], second := [100], count := 7, occupied := true },
       { first := [102], second := [98], count := 1, occupied := true }] ∧
    ∃ t2, resize_hash_table true
        { entries := [{ first := [99], second := [100], count := 7, occupied := true },
            { first := [102], second := [98], count := 1, occupied := true }],
          size := 2 } = some t2 ∧
      t2.capacity = 2 * HashTable.capacity
        { entries := [{ first := [99], second := [100], count := 7, occupied := true },
            { first := [102], second := [98], count := 1, occupied := true }],
          size := 2 } ∧
      t2.size = 2 ∧
      Multiset.ofList ((occupied_entries t2.entries).map triple)
        = Multiset.ofList ((occupied_entries
            [{ first := [99], second := [100], count := 7, occupied := true },
             { first := [102], second := [98], count := 1, occupied := true }]).map triple) :=
  ⟨by decide,
    C6_resize_correctness true
      { entries := [{ first := [99], second := [100], count := 7, occupied := true },
          { first := [102], second := [98], count := 1, occupied := true }],
        size := 2 } (by decide)⟩

/-- C7, size counter: in every table reached from `create_hash_table` with a capacity of at
least one by any calls, `size` is the number of occupied slots and is at most the capacity;
a further call returns, leaves `size` unchanged when its probe stops on an occupied slot
holding the same pair, and adds exactly one when it writes a new entry. -/
theorem C7_size_counter (sc : Bool) (capacity : Nat) (calls : List (List Byte × List Byte))
    (hcap : 1 ≤ capacity) :
    ∃ t, upserts sc (create_hash_table capacity) calls = some t ∧
      t.size = occupied_count t.entries ∧ t.size ≤ t.capacity ∧
      ∀ first second, ∃ t1 index found t2,
        resize_check sc t = some t1 ∧
        find_slot sc t1 first second = some (index, found) ∧
        insert_or_update sc t first second = some t2 ∧
        (slot t1.entries index).occupied = found ∧
        (found = true → same_pair first second (slot t1.entries index) = true ∧
          t2.size = t.size) ∧
        (found = false → t2.size = t.size + 1) ∧
        t2.size = occupied_count t2.entries := by
  obtain ⟨t, hrun, hc, _⟩ := upserts_keep sc (fun _ => True) (fun _ _ _ _ _ _ _ => trivial)
    calls (create_hash_table capacity) (Counted_create capacity hcap) trivial
  refine ⟨t, hrun, hc.size_eq, ?_, ?_⟩
  · rw [hc.size_eq]; exact occupied_count_le _
  · intro f s
    obtain ⟨t1, j, b, h1, h2, hrun2, hc2, hsz, _, _, _, hocc, hsame⟩ :=
      insert_or_update_shape sc t f s hc
    refine ⟨t1, j, b, _, h1, h2, hrun2, hocc, ?_, ?_, hc2.size_eq⟩
    · intro hb
      refine ⟨hsame hb, ?_⟩
      rw [write_slot_size, hb, if_pos rfl, hsz]
    · intro hb
      rw [write_slot_size, hb, hsz]
      simp

theorem C7_size_counter_witness :
    1 ≤ 1 ∧
    ∃ t, upserts true (create_hash_table 1) [([97], [98]), ([98], [97])] = some t ∧
      t.size = occupied_count t.entries ∧ t.size ≤ t.capacity ∧
      ∀ first second, ∃ t1 index found t2,
        resize_check true t = some t1 ∧
        find_slot true t1 first second = some (index, found) ∧
        insert_or_update true t first second = some t2 ∧
        (slot t1.entries index).occupied = found ∧
        (found = true → same_pair first second (slot t1.entries index) = true ∧
          t2.size = t.size) ∧
        (found = false → t2.size = t.size + 1) ∧
        t2.size = occupied_count t2.entries :=
  ⟨by decide, C7_size_counter true 1 [([97], [98]), ([98], [97])] (by decide)⟩

/-- C8 as stated fails: in the record `a,b,c` the second field sent to `insert_or_update` is
`b`, not `b,c`; and the records `,x` and `x,`, which contain the delimiter, are skipped. -/
theorem C8_record_splitting_counterexample :
    parse_record [97, 44, 98, 44, 99, 10] = some ([97], [98]) ∧
    process_line true (create_hash_table 4) [97, 44, 98, 44, 99, 10]
      ≠ insert_or_update true (create_hash_table 4) [97] [98, 44, 99] ∧
    parse_record [44, 120, 10] = none ∧
    parse_record [120, 44, 10] = none := by
  decide

/-- C8 amended, record splitting: a NUL-free record line of at most 1022 bytes, whose text
before the first `,` is not empty and at most 255 bytes long and whose text after that `,`
is not empty and does not begin with `,`, is read whole by `fgets` and leads to one call of
`insert_or_update`, with `first` the text before the first `,` and `second` the text after
it up to the next `,` or the end of the record, cut at 255 bytes; a record line that is empty
or has no `,` is skipped. -/
theorem C8_record_splitting (sc : Bool) (table : HashTable) (first rest tail skipped : List Byte)
    (hfirst : first ≠ []) (hcomma : (44 : Byte) ∉ first) (hlen : first.length ≤ 255)
    (hsecond : rest.takeWhile (fun b => decide (b ≠ 44)) ≠ [])
    (hnul : NulFree (first ++ 44 :: rest)) (hnl : (10 : Byte) ∉ first ++ 44 :: rest)
    (hline : (first ++ 44 :: rest).length ≤ 1022)
    (hskip_nul : NulFree skipped) (hskip_nl : (10 : Byte) ∉ skipped)
    (hskip : skipped = [] ∨ (44 : Byte) ∉ skipped) :
    fgets MAX_LINE_LENGTH ((first ++ 44 :: rest) ++ 10 :: tail)
      = some ((first ++ 44 :: rest) ++ [10], tail) ∧
    process_line sc table ((first ++ 44 :: rest) ++ [10])
      = insert_or_update sc table first
          ((rest.takeWhile (fun b => decide (b ≠ 44))).take 255) ∧
    process_line sc table (first ++ 44 :: rest)
      = insert_or_update sc table first
          ((rest.takeWhile (fun b => decide (b ≠ 44))).take 255) ∧
    process_line sc table (skipped ++ [10]) = some table ∧
    process_line sc table skipped = some table := by
  refine ⟨fgets_line _ tail hnl hline, ?_, ?_, ?_, ?_⟩
  · unfold process_line
    rw [parse_record_split _ first rest (strip_newline_line _ hnul) hfirst hcomma hlen hnul
      hsecond]
  · unfold process_line
    rw [parse_record_split _ first rest (strip_newline_last _ hnul hnl) hfirst hcomma hlen hnul
      hsecond]
  · unfold process_line
    rw [parse_record_skip _ skipped (strip_newline_line _ hskip_nul) hskip_nul hskip]
  · unfold process_line
    rw [parse_record_skip _ skipped (strip_newline_last _ hskip_nul hskip_nl) hskip_nul hskip]

theorem C8_record_splitting_witness :
    (([99, 97, 116] : List Byte) ≠ [] ∧ (44 : Byte) ∉ ([99, 97, 116] : List Byte) ∧
      ([99, 97, 116] : List Byte).length ≤ 255 ∧
      ([100, 111, 103, 44, 122] : List Byte).takeWhile (fun b => decide (b ≠ 44)) ≠ [] ∧
      NulFree ([99, 97, 116] ++ 44 :: [100, 111, 103, 44, 122]) ∧
      (10 : Byte) ∉ ([99, 97, 116] : List Byte) ++ 44 :: [100, 111, 103, 44, 122] ∧
      (([99, 97, 116] : List Byte) ++ 44 :: [100, 111, 103, 44, 122]).length ≤ 1022 ∧
      NulFree [120, 121] ∧ (10 : Byte) ∉ ([120, 121] : List Byte) ∧
      (([120, 121] : List Byte) = [] ∨ (44 : Byte) ∉ ([120, 121] : List Byte))) ∧
    (fgets MAX_LINE_LENGTH (([99, 97, 116] ++ 44 :: [100, 111, 103, 44, 122]) ++ 10 :: [120])
      = some (([99, 97, 116] ++ 44 :: [100, 111, 103, 44, 122]) ++ [10], [120]) ∧
    process_line true (create_hash_table 2)
        (([99, 97, 116] ++ 44 :: [100, 111, 103, 44, 122]) ++ [10])
      = insert_or_update true (create_hash_table 2) [99, 97, 116]
          ((([100, 111, 103, 44, 122] : List Byte).takeWhile
            (fun b => decide (b ≠ 44))).take 255) ∧
    process_line true (create_hash_table 2) ([99, 97, 116] ++ 44 :: [100, 111, 103, 44, 122])
      = insert_or_update true (create_hash_table 2) [99, 97, 116]
          ((([100, 111, 103, 44, 122] : List Byte).takeWhile
            (fun b => decide (b ≠ 44))).take 255) ∧
    process_line true (create_hash_table 2) ([120, 121] ++ [10])
      = some (create_hash_table 2) ∧
    process_line true (create_hash_table 2) [120, 121] = some (create_hash_table 2)) :=
  ⟨⟨by decide, by decide, by decide, by decide, by decide, by decide, by decide, by decide,
      by decide, by decide⟩,
    C8_record_splitting true (create_hash_table 2) [99, 97, 116] [100, 111, 103, 44, 122] [120]
      [120, 121] (by decide) (by decide) (by decide) (by decide) (by decide) (by decide)
      (by decide) (by decide) (by decide) (by decide)⟩

set_option maxRecDepth 100000 in
/-- C9, failing input of the truncation collision: two records whose first fields agree on
255 bytes and differ in the 256th are both skipped and leave the table empty, where two
records whose second fields differ in that way are counted as one pair with count two. -/
theorem C9_long_first_field_dropped :
    process_csv_with true 4
        ([104, 10] ++ (List.replicate 255 97 ++ [98, 44, 120, 10])
          ++ (List.replicate 255 97 ++ [99, 44, 120, 10]))
      = some (create_hash_table 4) ∧
    (process_csv_with true 4
        ([104, 10] ++ ([120, 44] ++ List.replicate 255 97 ++ [98, 10])
          ++ ([120, 44] ++ List.replicate 255 97 ++ [99, 10]))).map
      (fun t => (t.size, (occupied_entries t.entries).map triple))
      = some (1, [([120], List.replicate 255 97, 2)]) := by
  constructor <;> decide

/-- C10 as stated fails where plain `char` is signed: the byte 128 is added as -128. -/
theorem C10_hash_reference_counterexample :
    NulFree [128] ∧ NulFree [] ∧ 1 ≤ 1000000 ∧
      hash_word_pair true [128] [] 1000000 ≠ djb2_bytes [128] [] % 1000000 := by
  decide

/-- C10 amended, hash reference: for NUL-free strings and a table size of at least one,
`hash_word_pair` is the recurrence `h := (h * 33 + c) mod 2^64` from 5381 over the bytes of
`first` then `second`, reduced modulo the table size, with `c` the value of the byte as a
plain `char`; it is below the table size; and `c` is the value of the byte in 0..255 where
plain `char` is unsigned or all bytes are below 128. -/
theorem C10_hash_reference (sc : Bool) (first second : List Byte) (table_size : Nat)
    (hfirst : NulFree first) (hsecond : NulFree second) (hsize : 1 ≤ table_size) :
    hash_word_pair sc first second table_size = djb2_chars sc first second % table_size ∧
    hash_word_pair sc first second table_size < table_size ∧
    ((sc = false ∨ ∀ b ∈ first ++ second, b.val < 128) →
      hash_word_pair sc first second table_size = djb2_bytes first second % table_size) := by
  refine ⟨?_, hash_word_pair_lt sc first second hsize, ?_⟩
  · rw [hash_word_pair_eq_foldl sc first second table_size hfirst hsecond]
    unfold djb2_chars
    rw [foldl_congr_mem (hash_step sc) _ (first ++ second) 5381
      (fun h c _ => hash_step_eq sc h c)]
  · intro hu
    rw [hash_word_pair_eq_foldl sc first second table_size hfirst hsecond]
    unfold djb2_bytes
    rw [foldl_congr_mem (hash_step sc) _ (first ++ second) 5381
      (fun h c hc => hash_step_unsigned sc h c (hu.imp id (fun hall => hall c hc)))]

theorem C10_hash_reference_witness :
    (NulFree [99, 200] ∧ NulFree [100] ∧ 1 ≤ 8) ∧
    hash_word_pair true [99, 200] [100] 8 = djb2_chars true [99, 200] [100] % 8 ∧
    hash_word_pair true [99, 200] [100] 8 < 8 ∧
    (((true = false) ∨ ∀ b ∈ ([99, 200] : List Byte) ++ [100], b.val < 128) →
      hash_word_pair true [99, 200] [100] 8 = djb2_bytes [99, 200] [100] % 8) :=
  ⟨⟨by decide, by decide, by decide⟩,
    C10_hash_reference true [99, 200] [100] 8 (by decide) (by decide) (by decide)⟩

/-! ## Capacity and size along a call -/

theorem resize_check_total (sc : Bool) (t : HashTable) (hcap : 1 ≤ t.capacity) :
    ∃ t1, resize_check sc t = some t1 ∧
      (7 * t.capacity ≤ 10 * t.size → t1.capacity = 2 * t.capacity) ∧
      (¬ 7 * t.capacity ≤ 10 * t.size → t1 = t) := by
  have hne : t.capacity ≠ 0 := by omega
  by_cases hl : 7 * t.capacity ≤ 10 * t.size
  · obtain ⟨t1, hrun, hcap2, _⟩ := resize_spec sc t
    refine ⟨t1, ?_, fun _ => hcap2, fun h => absurd hl h⟩
    unfold resize_check load_factor_reached
    rw [if_neg hne, if_pos (by simpa using hl), hrun]
  · refine ⟨t, ?_, fun h => absurd h hl, fun _ => rfl⟩
    unfold resize_check load_factor_reached
    rw [if_neg hne, if_neg (by simpa using hl)]

theorem insert_or_update_map (sc : Bool) (t t1 : HashTable) (f s : List Byte)
    (h1 : resize_check sc t = some t1) :
    insert_or_update sc t f s
      = (find_slot sc t1 f s).map (fun r => write_slot t1 f s r.1 r.2) := by
  cases h2 : find_slot sc t1 f s with
  | none =>
    unfold insert_or_update
    rw [h1]
    simp only
    rw [h2]
    rfl
  | some r =>
    obtain ⟨j, b⟩ := r
    rw [insert_or_update_eq sc t t1 f s j b h1 h2]
    rfl

theorem find_slot_lt (sc : Bool) (t : HashTable) (f s : List Byte) (j : Nat) (b : Bool)
    (h : find_slot sc t f s = some (j, b)) : j < t.capacity := by
  unfold find_slot at h
  by_cases h0 : t.capacity = 0
  · rw [if_pos h0] at h; cases h
  · rw [if_neg h0] at h
    have hpos : 0 < t.capacity := Nat.pos_of_ne_zero h0
    obtain ⟨d, _, hjd, _⟩ := probe_insert_spec t.entries f s _ _ j b
      (hash_word_pair_lt sc f s hpos) h
    rw [hjd]
    exact Nat.mod_lt _ hpos

theorem slot_write_slot (t : HashTable) (f s : List Byte) (j : Nat) (b : Bool)
    (hj : j < t.capacity) :
    slot (write_slot t f s j b).entries j
      = if b then
          { slot t.entries j with count := ((slot t.entries j).count + 1) % 2 ^ 32 }
        else
          { first := strncpy_word f, second := strncpy_word s, count := 1, occupied := true } := by
  have hj2 : j < t.entries.length := hj
  cases b with
  | true => simp only [write_slot, if_true]; rw [slot_set]; simp [hj2]
  | false => simp only [write_slot, Bool.false_eq_true, if_false]; rw [slot_set]; simp [hj2]

theorem grown_step (sc : Bool) (capacity : Nat) (t : HashTable) (f s : List Byte)
    (t2 : HashTable) (hc : Counted t) (hg : grown capacity t)
    (h : insert_or_update sc t f s = some t2) : grown capacity t2 := by
  obtain ⟨t1, j, b, _, _, hrun, _, hsz, _, hno, hyes, _, _⟩ :=
    insert_or_update_shape sc t f s hc
  rw [hrun] at h
  cases h
  have hcap := write_slot_capacity t1 f s j b
  have hsize := write_slot_size t1 f s j b
  have hge : t1.size ≤ (write_slot t1 f s j b).size := by
    rw [hsize]; split <;> omega
  obtain ⟨k, hk, hfull⟩ := hg
  have hpos := hc.cap_pos
  cases hl : load_factor_reached t with
  | false =>
    have ht1 := hno hl
    refine ⟨k, by rw [hcap, ht1]; exact hk, ?_⟩
    intro hk1
    have := hfull hk1
    rw [hcap]
    rw [ht1] at hge ⊢
    omega
  | true =>
    have hc2 := hyes hl
    have hload : 7 * t.capacity ≤ 10 * t.size := by
      unfold load_factor_reached at hl
      rw [if_neg (by omega)] at hl
      simpa using hl
    refine ⟨k + 1, ?_, ?_⟩
    · rw [hcap, hc2, hk, pow_succ]; ring
    · intro _
      rw [hcap, hc2]
      omega

theorem grown_upserts (sc : Bool) (capacity : Nat) (calls : List (List Byte × List Byte))
    (hcap : 1 ≤ capacity) :
    ∃ t, upserts sc (create_hash_table capacity) calls = some t ∧ Counted t ∧
      grown capacity t := by
  have hstart : grown capacity (create_hash_table capacity) :=
    ⟨0, by simp [create_hash_table, HashTable.capacity], fun h => absurd h (by omega)⟩
  exact upserts_keep sc (grown capacity)
    (fun t f s t2 hc hp h => grown_step sc capacity t f s t2 hc hp h)
    calls (create_hash_table capacity) (Counted_create capacity hcap) hstart

/-! ## A call with a pair that no slot matches -/

theorem mem_occupied_entries_of_slot {es : List WordPair} {j : Nat} (hj : j < es.length)
    (hocc : (slot es j).occupied = true) : slot es j ∈ occupied_entries es := by
  unfold occupied_entries
  exact List.mem_filter.mpr ⟨slot_mem hj, hocc⟩

theorem upsert_fresh (sc : Bool) (t : HashTable) (f s : List Byte) (hc : Counted t)
    (hnew : ∀ e ∈ occupied_entries t.entries, same_pair f s e = false) :
    ∃ t2, insert_or_update sc t f s = some t2 ∧ Counted t2 ∧ t2.size = t.size + 1 ∧
      List.Perm (occupied_entries t2.entries)
        ({ first := strncpy_word f, second := strncpy_word s, count := 1, occupied := true }
          :: occupied_entries t.entries) := by
  obtain ⟨t1, h1, hc1, hsz, hload, hperm, _, _, _⟩ := resize_check_spec sc t hc
  have hroom : t1.size < t1.capacity := by omega
  obtain ⟨j, b, h2, hj, _, hocc, hsame⟩ := find_slot_spec sc t1 f s hc1 hroom
  have hb : b = false := by
    cases b with
    | false => rfl
    | true =>
      have hmem := hperm.subset (mem_occupied_entries_of_slot hj hocc)
      have := hnew _ hmem
      rw [hsame rfl] at this
      cases this
  subst hb
  refine ⟨_, insert_or_update_eq sc t t1 f s j false h1 h2,
    write_slot_counted t1 f s j false hc1 hj hocc, ?_, ?_⟩
  · rw [write_slot_size, hsz]; simp
  · simp only [write_slot, Bool.false_eq_true, if_false]
    exact (occupied_entries_set_free t1.entries j _ hj hocc rfl).trans (hperm.cons _)

theorem split_determined (f1 s1 f2 s2 : List Byte) (hcat : f1 ++ s1 = f2 ++ s2)
    (hf : f1.take 255 = f2) (hs : s1.take 255 = s2) : f1 = f2 ∧ s1 = s2 := by
  have hlen := congrArg List.length hcat
  have hlf := congrArg List.length hf
  have hls := congrArg List.length hs
  simp only [List.length_append, List.length_take] at hlen hlf hls
  have h1 : f1.length ≤ 255 := by omega
  have h2 : s1.length ≤ 255 := by omega
  rw [List.take_of_length_le h1] at hf
  rw [List.take_of_length_le h2] at hs
  exact ⟨hf, hs⟩

/-! ## The rows of `write_results` -/

theorem write_loop_eq :
    ∀ (es : List WordPair) (out : List Byte),
      write_loop es out = out ++ ((occupied_entries es).map format_row).flatten
  | [], out => by simp [write_loop, occupied_entries]
  | e :: rest, out => by
    by_cases he : e.occupied = true
    · rw [write_loop, if_pos he, write_loop_eq rest]
      simp [occupied_entries, List.filter_cons, he, List.append_assoc]
    · rw [write_loop, if_neg he, write_loop_eq rest]
      simp [occupied_entries, List.filter_cons, he]

theorem slot_append_left (l : List WordPair) (x : WordPair) (i : Nat) (hi : i < l.length) :
    slot (l ++ [x]) i = slot l i := by
  unfold slot
  rw [List.getElem?_append_left hi]

theorem slot_append_last (l : List WordPair) (x : WordPair) : slot (l ++ [x]) l.length = x := by
  unfold slot
  simp

theorem occupied_entries_eq_indices (es : List WordPair) :
    occupied_entries es = (occupied_indices es).map (slot es) := by
  induction es using List.reverseRecOn with
  | nil => rfl
  | append_singleton l x ih =>
    unfold occupied_indices occupied_entries at *
    rw [List.length_append, List.length_singleton, List.range_succ, List.filter_append,
      List.filter_append, List.map_append]
    have h1 : List.filter (fun i => (slot (l ++ [x]) i).occupied) (List.range l.length)
        = List.filter (fun i => (slot l i).occupied) (List.range l.length) := by
      apply List.filter_congr
      intro i hi
      rw [slot_append_left l x i (List.mem_range.mp hi)]
    have h2 : List.map (slot (l ++ [x]))
          (List.filter (fun i => (slot l i).occupied) (List.range l.length))
        = List.map (slot l) (List.filter (fun i => (slot l i).occupied) (List.range l.length)) := by
      apply List.map_congr_left
      intro i hi
      exact slot_append_left l x i (List.mem_range.mp (List.mem_filter.mp hi).1)
    rw [h1, h2, ← ih]
    congr 1
    by_cases hx : x.occupied = true
    · simp [List.filter_cons, slot_append_last, hx]
    · simp [List.filter_cons, slot_append_last, hx]

theorem occupied_indices_length (es : List WordPair) :
    (occupied_indices es).length = occupied_count es := by
  rw [occupied_count_eq, occupied_entries_eq_indices, List.length_map]

/-! ## The reading loop over whole lines -/

theorem fgets_loop_end :
    ∀ (l : List Byte) (n : Nat), (10 : Byte) ∉ l → l.length ≤ n → fgets_loop n l = (l, [])
  | [], n, _, _ => by cases n <;> rfl
  | b :: rest, n, hnl, hn => by
    obtain ⟨m, rfl⟩ : ∃ m, n = m + 1 := ⟨n - 1, by simp at hn; omega⟩
    have hb : b ≠ 10 := fun hb0 => hnl (hb0 ▸ List.mem_cons_self _ _)
    have hrest : (10 : Byte) ∉ rest := fun hc => hnl (List.mem_cons_of_mem _ hc)
    have hlen : rest.length ≤ m := by simp at hn; omega
    rw [fgets_loop, if_neg hb, fgets_loop_end rest m hrest hlen]

theorem fgets_end (l : List Byte) (hne : l ≠ []) (hnl : (10 : Byte) ∉ l)
    (hlen : l.length ≤ 1022) : fgets MAX_LINE_LENGTH l = some (l, []) := by
  have h := fgets_loop_end l (MAX_LINE_LENGTH - 1) hnl (by simp [MAX_LINE_LENGTH]; omega)
  unfold fgets
  cases l with
  | nil => exact absurd rfl hne
  | cons b rest => simp only; rw [h]

theorem process_loop_nil (sc : Bool) (fuel : Nat) (t : HashTable) :
    process_loop sc (fuel + 1) t [] = some t := by
  simp [process_loop, fgets]

theorem text_of_lines_length_cons (l : List Byte) (rest : List (List Byte)) (last : List Byte) :
    (text_of_lines (l :: rest) ++ last).length
      = l.length + 1 + (text_of_lines rest ++ last).length := by
  simp [text_of_lines, List.length_append]
  omega

/-- On a text of lines that fit the buffer, the reading loop calls the loop body once for
each line, and once more for an unterminated last line. -/
theorem process_loop_lines (sc : Bool) :
    ∀ (lines : List (List Byte)) (last : List Byte) (fuel : Nat) (t : HashTable),
      (∀ l ∈ lines, (10 : Byte) ∉ l ∧ l.length ≤ 1022) →
      (10 : Byte) ∉ last → last.length ≤ 1022 →
      (text_of_lines lines ++ last).length < fuel →
      process_loop sc fuel t (text_of_lines lines ++ last)
        = process_lines sc t
            (lines.map (fun l => l ++ [10]) ++ if last = [] then [] else [last])
  | [], last, fuel, t, _, hnl, hlen, hfuel => by
    obtain ⟨f1, rfl⟩ : ∃ m, fuel = m + 1 := ⟨fuel - 1, by omega⟩
    by_cases hl : last = []
    · subst hl
      simp [text_of_lines, process_loop_nil, process_lines]
    · have hpos : 0 < last.length := List.length_pos.mpr hl
      simp only [text_of_lines, List.nil_append] at hfuel ⊢
      obtain ⟨f2, rfl⟩ : ∃ m, f1 = m + 1 := ⟨f1 - 1, by omega⟩
      rw [process_loop, fgets_end last hl hnl hlen]
      simp only [List.map_nil, List.nil_append, if_neg hl, process_lines]
      cases process_line sc t last with
      | none => rfl
      | some t1 => simp only; rw [process_loop_nil]
  | l :: rest, last, fuel, t, hall, hnl, hlen, hfuel => by
    obtain ⟨f1, rfl⟩ : ∃ m, fuel = m + 1 := ⟨fuel - 1, by omega⟩
    have hl := hall l (List.mem_cons_self _ _)
    have hrest : ∀ x ∈ rest, (10 : Byte) ∉ x ∧ x.length ≤ 1022 :=
      fun x hx => hall x (List.mem_cons_of_mem _ hx)
    rw [text_of_lines_length_cons] at hfuel
    have hfile : text_of_lines (l :: rest) ++ last = l ++ 10 :: (text_of_lines rest ++ last) := by
      simp [text_of_lines, List.append_assoc]
    rw [hfile, process_loop, fgets_line l _ hl.1 hl.2]
    simp only [List.map_cons, List.cons_append, process_lines]
    cases process_line sc t (l ++ [10]) with
    | none => rfl
    | some t1 =>
      simp only
      exact process_loop_lines sc rest last f1 t1 hrest hnl hlen (by omega)

theorem process_csv_with_lines (sc : Bool) (capacity : Nat) (header : List Byte)
    (lines : List (List Byte)) (last : List Byte)
    (hheader : (10 : Byte) ∉ header ∧ header.length ≤ 1022)
    (hlines : ∀ l ∈ lines, (10 : Byte) ∉ l ∧ l.length ≤ 1022)
    (hlast : (10 : Byte) ∉ last ∧ last.length ≤ 1022) :
    process_csv_with sc capacity (header ++ 10 :: (text_of_lines lines ++ last))
      = process_lines sc (create_hash_table capacity)
          (lines.map (fun l => l ++ [10]) ++ if last = [] then [] else [last]) := by
  unfold process_csv_with
  rw [fgets_line header _ hheader.1 hheader.2]
  simp only
  exact process_loop_lines sc lines last _ _ hlines hlast.1 hlast.2 (by omega)

/-! ## Lines without a delimiter -/

theorem mem_of_mem_cstr : ∀ (x : List Byte) (b : Byte), b ∈ cstr x → b ∈ x
  | [], _, h => by simp [cstr] at h
  | c :: rest, b, h => by
    by_cases hc : c = 0
    · simp [cstr, hc] at h
    · simp only [cstr, hc, if_false, List.mem_cons] at h ⊢
      rcases h with h | h
      · exact Or.inl h
      · exact Or.inr (mem_of_mem_cstr rest b h)

theorem NulFree_cstr : ∀ (x : List Byte), NulFree (cstr x)
  | [] => by simp [cstr, NulFree]
  | c :: rest => by
    by_cases hc : c = 0
    · simp [cstr, hc, NulFree]
    · have ih := NulFree_cstr rest
      unfold NulFree at ih ⊢
      simp only [cstr, hc, if_false, List.mem_cons, not_or]
      exact ⟨fun h => hc h.symm, ih⟩

theorem mem_of_mem_strip_newline (x : List Byte) (b : Byte) (h : b ∈ strip_newline x) :
    b ∈ cstr x := by
  unfold strip_newline at h
  split at h
  · exact List.mem_of_mem_dropLast h
  · exact h

theorem parse_record_no_comma (x : List Byte) (hcomma : (44 : Byte) ∉ x) :
    parse_record x = none := by
  have hsub : ∀ b, b ∈ strip_newline x → b ∈ cstr x := mem_of_mem_strip_newline x
  have hnul : NulFree (strip_newline x) := fun h0 => NulFree_cstr x (hsub 0 h0)
  have hno : (44 : Byte) ∉ strip_newline x :=
    fun h => hcomma (mem_of_mem_cstr x 44 (hsub 44 h))
  exact parse_record_skip x (strip_newline x) rfl hnul (Or.inr hno)

theorem process_line_no_comma (sc : Bool) (t : HashTable) (x : List Byte)
    (hcomma : (44 : Byte) ∉ x) : process_line sc t x = some t := by
  unfold process_line
  rw [parse_record_no_comma x hcomma]

theorem process_lines_filter (sc : Bool) :
    ∀ (bufs : List (List Byte)) (t : HashTable),
      process_lines sc t bufs = process_lines sc t (bufs.filter has_delimiter)
  | [], _ => rfl
  | x :: rest, t => by
    by_cases hx : (44 : Byte) ∈ x
    · have hd : has_delimiter x = true := by simpa [has_delimiter] using hx
      rw [List.filter_cons, if_pos hd]
      simp only [process_lines]
      cases process_line sc t x with
      | none => rfl
      | some t1 => exact process_lines_filter sc rest t1
    · have hd : ¬ has_delimiter x = true := by simpa [has_delimiter] using hx
      rw [List.filter_cons, if_neg hd]
      simp only [process_lines, process_line_no_comma sc t x hx]
      exact process_lines_filter sc rest t

theorem process_lines_counted (sc : Bool) :
    ∀ (bufs : List (List Byte)) (t : HashTable), Counted t →
      ∃ t2, process_lines sc t bufs = some t2 ∧ Counted t2
  | [], t, hc => ⟨t, rfl, hc⟩
  | x :: rest, t, hc => by
    have hstep : ∃ t1, process_line sc t x = some t1 ∧ Counted t1 := by
      unfold process_line
      cases parse_record x with
      | none => exact ⟨t, rfl, hc⟩
      | some r =>
        obtain ⟨t1, j, b, _, _, hrun, hc2, _⟩ := insert_or_update_shape sc t r.1 r.2 hc
        exact ⟨_, hrun, hc2⟩
    obtain ⟨t1, h1, hc1⟩ := hstep
    obtain ⟨t2, h2, hc2⟩ := process_lines_counted sc rest t1 hc1
    exact ⟨t2, by simp only [process_lines, h1]; exact h2, hc2⟩

theorem has_delimiter_newline (l : List Byte) : has_delimiter (l ++ [10]) = has_delimiter l := by
  unfold has_delimiter
  have : (44 : Byte) ∈ l ++ [10] ↔ (44 : Byte) ∈ l := by
    simp only [List.mem_append, List.mem_singleton]
    constructor
    · rintro (h | h)
      · exact h
      · exact absurd h (by decide)
    · exact Or.inl
  simp only [this]

theorem filter_buffers (lines : List (List Byte)) (last : List Byte) :
    (lines.map (fun l => l ++ [10]) ++ if last = [] then [] else [last]).filter has_delimiter
      = ((lines.filter has_delimiter).map (fun l => l ++ [10])
          ++ if (if has_delimiter last then last else []) = [] then []
             else [if has_delimiter last then last else []]).filter has_delimiter := by
  have hmap : ∀ (ls : List (List Byte)),
      (ls.map (fun l => l ++ [10])).filter has_delimiter
        = (ls.filter has_delimiter).map (fun l => l ++ [10]) := by
    intro ls
    induction ls with
    | nil => rfl
    | cons l rest ih =>
      by_cases hl : has_delimiter l = true
      · simp [List.filter_cons, has_delimiter_newline, hl, ih]
      · simp [List.filter_cons, has_delimiter_newline, hl, ih]
  rw [List.filter_append, List.filter_append, hmap, hmap, List.filter_filter]
  simp only [Bool.and_self]
  congr 1
  by_cases hd : has_delimiter last = true
  · simp only [hd, if_true]
  · have hd2 : has_delimiter last = false := by simpa using hd
    simp only [hd2, Bool.false_eq_true, if_false, if_true, List.filter_nil]
    by_cases hl : last = []
    · simp [hl]
    · simp [hl, List.filter_cons, hd2]

/-! ## The occupied slots of a counting table -/

theorem entry_of_injective (calls : List (List Byte × List Byte)) :
    Function.Injective (entry_of calls) := by
  intro k1 k2 h
  unfold entry_of at h
  simp only [WordPair.mk.injEq] at h
  exact Prod.ext h.1 h.2.1

theorem occupied_entries_perm (sc : Bool) (calls : List (List Byte × List Byte))
    (t : HashTable) (hinv : TableInv sc (fun k => calls.count k) t) :
    List.Perm (occupied_entries t.entries) (calls.dedup.map (entry_of calls)) := by
  have hnodup : (calls.dedup.map (entry_of calls)).Nodup :=
    List.Nodup.map (entry_of_injective calls) (List.nodup_dedup calls)
  rw [List.perm_iff_count]
  intro e
  by_cases he : e ∈ occupied_entries t.entries
  · have hocc : e.occupied = true := by
      unfold occupied_entries at he
      exact (List.mem_filter.mp he).2
    have hin : e ∈ t.entries := by
      unfold occupied_entries at he
      exact (List.mem_filter.mp he).1
    have hmem : e ∈ slots_of t.entries e.first e.second :=
      mem_slots_of.mpr ⟨hin, hocc, rfl, rfl⟩
    have hcontent := hinv.content e.first e.second
    simp only at hcontent
    have hholds : holds_pair e.first e.second e = true := by simp [holds_pair]
    have hcount : List.count e (occupied_entries t.entries)
        = List.count e (slots_of t.entries e.first e.second) := by
      unfold slots_of
      rw [List.count_filter hholds]
    by_cases h0 : List.count (e.first, e.second) calls = 0
    · rw [hcontent, if_pos h0] at hmem
      cases hmem
    · rw [hcontent, if_neg h0] at hmem hcount
      have heq : e = entry_of calls (e.first, e.second) := List.mem_singleton.mp hmem
      have hk : (e.first, e.second) ∈ calls.dedup := by
        rw [List.mem_dedup]
        by_contra hnot
        exact h0 (List.count_eq_zero.mpr hnot)
      have hright : e ∈ calls.dedup.map (entry_of calls) :=
        List.mem_map.mpr ⟨_, hk, heq.symm⟩
      rw [hcount, List.count_eq_one_of_mem hnodup hright,
        List.count_eq_one_of_mem (List.nodup_singleton _) hmem]
  · rw [List.count_eq_zero_of_not_mem he]
    symm
    apply List.count_eq_zero_of_not_mem
    intro hright
    obtain ⟨k, hk, hke⟩ := List.mem_map.mp hright
    have hkc : k ∈ calls := List.mem_dedup.mp hk
    have h0 : List.count k calls ≠ 0 := fun h => (List.count_eq_zero.mp h) hkc
    have hcontent := hinv.content k.1 k.2
    simp only [Prod.mk.eta] at hcontent
    rw [if_neg h0] at hcontent
    have hmem : e ∈ slots_of t.entries k.1 k.2 := by
      rw [hcontent, ← hke]
      exact List.mem_singleton.mpr rfl
    apply he
    unfold slots_of at hmem
    exact (List.mem_filter.mp hmem).1

theorem perm_pair {α : Type} {l : List α} {a b : α} (h : List.Perm l [a, b]) :
    l = [a, b] ∨ l = [b, a] := by
  have hlen := h.length_eq
  match l, h, hlen with
  | [x, y], h, _ =>
    have hx : x ∈ [a, b] := h.subset (List.mem_cons_self _ _)
    simp only [List.mem_cons, List.mem_singleton, List.not_mem_nil, or_false] at hx
    rcases hx with rfl | rfl
    · have h2 := (List.perm_cons x).mp h
      left
      rw [List.perm_singleton.mp h2]
    · have h2 := (List.perm_cons x).mp (h.trans (List.Perm.swap x a []))
      right
      rw [List.perm_singleton.mp h2]

theorem process_lines_eq_upserts (sc : Bool) :
    ∀ (bufs : List (List Byte)) (calls : List (List Byte × List Byte)) (t : HashTable),
      bufs.map parse_record = calls.map some →
      process_lines sc t bufs = upserts sc t calls
  | [], [], _, _ => rfl
  | [], _ :: _, _, h => by simp at h
  | _ :: _, [], _, h => by simp at h
  | x :: rest, c :: calls, t, h => by
    simp only [List.map_cons, List.cons.injEq] at h
    obtain ⟨f, s⟩ := c
    simp only [process_lines, process_line, h.1, upserts]
    cases insert_or_update sc t f s with
    | none => rfl
    | some t1 => exact process_lines_eq_upserts sc rest calls t1 h.2

theorem main_output_with_filter (sc : Bool) (capacity : Nat) (header : List Byte)
    (lines : List (List Byte)) (last : List Byte) (hcap : 1 ≤ capacity)
    (hheader : (10 : Byte) ∉ header ∧ header.length ≤ 1022)
    (hlines : ∀ l ∈ lines, (10 : Byte) ∉ l ∧ l.length ≤ 1022)
    (hlast : (10 : Byte) ∉ last ∧ last.length ≤ 1022) :
    ∃ out,
      main_output_with sc capacity (header ++ 10 :: (text_of_lines lines ++ last)) = some out ∧
      main_output_with sc capacity
        (header ++ 10 :: (text_of_lines (lines.filter has_delimiter)
          ++ if has_delimiter last then last else [])) = some out := by
  have hlines2 : ∀ l ∈ lines.filter has_delimiter, (10 : Byte) ∉ l ∧ l.length ≤ 1022 :=
    fun l hl => hlines l (List.mem_filter.mp hl).1
  have hlast2 : (10 : Byte) ∉ (if has_delimiter last then last else []) ∧
      (if has_delimiter last then last else []).length ≤ 1022 := by
    split
    · exact hlast
    · exact ⟨by simp, by simp⟩
  have h1 := process_csv_with_lines sc capacity header lines last hheader hlines hlast
  have h2 := process_csv_with_lines sc capacity header (lines.filter has_delimiter)
    (if has_delimiter last then last else []) hheader hlines2 hlast2
  have hsame : process_csv_with sc capacity (header ++ 10 :: (text_of_lines lines ++ last))
      = process_csv_with sc capacity
        (header ++ 10 :: (text_of_lines (lines.filter has_delimiter)
          ++ if has_delimiter last then last else [])) := by
    rw [h1, h2, process_lines_filter sc (lines.map (fun l => l ++ [10]) ++ _),
      filter_buffers lines last, ← process_lines_filter]
  obtain ⟨t, hrun, _⟩ := process_lines_counted sc
    (lines.map (fun l => l ++ [10]) ++ if last = [] then [] else [last])
    (create_hash_table capacity) (Counted_create capacity hcap)
  refine ⟨(write_results t).1, ?_, ?_⟩
  · unfold main_output_with
    rw [h1, hrun]
    rfl
  · unfold main_output_with
    rw [← hsame, h1, hrun]
    rfl

/-! ## Stored keys and compared strings -/

theorem toDigitsCore_append (fuel : Nat) :
    ∀ (n : Nat) (ds : List Char),
      Nat.toDigitsCore 10 fuel n ds = Nat.toDigitsCore 10 fuel n [] ++ ds := by
  induction fuel with
  | zero => intro n ds; simp [Nat.toDigitsCore]
  | succ f ih =>
    intro n ds
    simp only [Nat.toDigitsCore]
    by_cases h : n / 10 = 0
    · simp [h]
    · simp only [h, if_false]
      rw [ih (n / 10) (Nat.digitChar (n % 10) :: ds), ih (n / 10) [Nat.digitChar (n % 10)]]
      simp

theorem toDigitsCore_fuel (f1 : Nat) :
    ∀ (f2 n : Nat), n < f1 → n < f2 →
      Nat.toDigitsCore 10 f1 n [] = Nat.toDigitsCore 10 f2 n [] := by
  induction f1 with
  | zero => intro f2 n h1; omega
  | succ f ih =>
    intro f2 n h1 h2
    obtain ⟨g, rfl⟩ : ∃ g, f2 = g + 1 := ⟨f2 - 1, by omega⟩
    simp only [Nat.toDigitsCore]
    by_cases h : n / 10 = 0
    · simp [h]
    · simp only [h, if_false]
      have hlt : n / 10 < n := Nat.div_lt_self (by omega) (by decide)
      rw [toDigitsCore_append f, toDigitsCore_append g, ih g (n / 10) (by omega) (by omega)]

theorem digit_byte (k : Nat) (hk : k < 10) :
    (Fin.ofNat (Nat.digitChar k).toNat : Byte) = Fin.ofNat (48 + k) := by
  interval_cases k <;> rfl

theorem toDigits_eq (n : Nat) :
    Nat.toDigits 10 n
      = if n < 10 then [Nat.digitChar n]
        else Nat.toDigits 10 (n / 10) ++ [Nat.digitChar (n % 10)] := by
  show Nat.toDigitsCore 10 (n + 1) n []
      = if n < 10 then [Nat.digitChar n]
        else Nat.toDigitsCore 10 (n / 10 + 1) (n / 10) [] ++ [Nat.digitChar (n % 10)]
  rw [Nat.toDigitsCore]
  by_cases h : n < 10
  · have h0 : n / 10 = 0 := Nat.div_eq_of_lt h
    simp only [h0, if_true, h, Nat.mod_eq_of_lt h]
  · have h0 : n / 10 ≠ 0 := by omega
    have hlt : n / 10 < n := Nat.div_lt_self (by omega) (by decide)
    simp only [h0, if_false, h]
    rw [toDigitsCore_append n, toDigitsCore_fuel n (n / 10 + 1) (n / 10) hlt (by omega)]

/-- The digits of a number: one digit below ten, and otherwise the digits of the tenth
followed by the last digit. -/
theorem decimal_eq (n : Nat) :
    decimal n
      = if n < 10 then [Fin.ofNat (48 + n)]
        else decimal (n / 10) ++ [Fin.ofNat (48 + n % 10)] := by
  conv_lhs => rw [decimal, toDigits_eq]
  by_cases h : n < 10
  · rw [if_pos h, if_pos h]
    simp only [List.map_cons, List.map_nil]
    rw [digit_byte n h]
  · rw [if_neg h, if_neg h]
    simp only [List.map_append, List.map_cons, List.map_nil]
    rw [digit_byte (n % 10) (Nat.mod_lt _ (by decide))]
    rfl

/-! ## The output of a run whose records are known -/

theorem output_of_calls (sc : Bool) (file : List Byte) (calls : List (List Byte × List Byte))
    (hrun : process_csv sc file = upserts sc (create_hash_table INITIAL_HASHTABLE_SIZE) calls)
    (hvalid : valid_calls calls) :
    ∃ rows, List.Perm rows (calls.dedup.map (entry_of calls)) ∧
      main_output sc file = some (output_header ++ (rows.map format_row).flatten) := by
  obtain ⟨t, ht, hinv⟩ := upserts_from_empty sc INITIAL_HASHTABLE_SIZE (by decide) calls hvalid
  refine ⟨occupied_entries t.entries, occupied_entries_perm sc calls t hinv, ?_⟩
  unfold main_output
  rw [hrun, ht]
  simp only [Option.map_some', write_results, write_loop_eq]

theorem scenario_output (sc : Bool) :
    main_output sc scenario_input
        = some ([118, 97, 108, 117, 101, 44, 110, 101, 120, 116, 95, 118, 97, 108, 117, 101, 44,
            99, 111, 117, 110, 116, 10]
            ++ [99, 97, 116, 44, 100, 111, 103, 44, 50, 10]
            ++ [102, 105, 115, 104, 44, 98, 105, 114, 100, 44, 49, 10]) ∨
      main_output sc scenario_input
        = some ([118, 97, 108, 117, 101, 44, 110, 101, 120, 116, 95, 118, 97, 108, 117, 101, 44,
            99, 111, 117, 110, 116, 10]
            ++ [102, 105, 115, 104, 44, 98, 105, 114, 100, 44, 49, 10]
            ++ [99, 97, 116, 44, 100, 111, 103, 44, 50, 10]) := by
  have hfile : scenario_input
      = [118, 97, 108, 117, 101, 44, 110, 101, 120, 116, 95, 118, 97, 108, 117, 101]
        ++ 10 :: (text_of_lines [[99, 97, 116, 44, 100, 111, 103], [99, 97, 116, 44, 100, 111, 103],
          [102, 105, 115, 104, 44, 98, 105, 114, 100]] ++ []) := by
    decide
  have hrun : process_csv sc scenario_input
      = upserts sc (create_hash_table INITIAL_HASHTABLE_SIZE)
          [([99, 97, 116], [100, 111, 103]), ([99, 97, 116], [100, 111, 103]),
            ([102, 105, 115, 104], [98, 105, 114, 100])] := by
    unfold process_csv
    rw [hfile, process_csv_with_lines sc _ _ _ [] (by decide) (by decide) (by decide)]
    exact process_lines_eq_upserts sc _ _ _ (by decide)
  obtain ⟨rows, hperm, hout⟩ := output_of_calls sc _ _ hrun (by decide)
  have hlist : List.map
      (entry_of [([99, 97, 116], [100, 111, 103]), ([99, 97, 116], [100, 111, 103]),
        ([102, 105, 115, 104], [98, 105, 114, 100])])
      (List.dedup [(([99, 97, 116] : List Byte), ([100, 111, 103] : List Byte)),
        ([99, 97, 116], [100, 111, 103]), ([102, 105, 115, 104], [98, 105, 114, 100])])
      = [{ first := [99, 97, 116], second := [100, 111, 103], count := 2, occupied := true },
         { first := [102, 105, 115, 104], second := [98, 105, 114, 100], count := 1,
           occupied := true }] := by
    decide
  rw [hlist] at hperm
  rcases perm_pair hperm with h | h
  · left
    rw [hout, h]
    decide
  · right
    rw [hout, h]
    decide

/-- A first line that fits the read buffer is skipped whatever it holds. -/
theorem short_header_skipped (sc : Bool) (header1 header2 rest : List Byte)
    (hheader1 : (10 : Byte) ∉ header1 ∧ header1.length ≤ 1022)
    (hheader2 : (10 : Byte) ∉ header2 ∧ header2.length ≤ 1022) :
    process_csv sc (header1 ++ 10 :: rest)
      = process_loop sc (rest.length + 1) (create_hash_table INITIAL_HASHTABLE_SIZE) rest ∧
    process_csv sc (header1 ++ 10 :: rest) = process_csv sc (header2 ++ 10 :: rest) := by
  have hskip : ∀ (h : List Byte), ((10 : Byte) ∉ h ∧ h.length ≤ 1022) →
      process_csv sc (h ++ 10 :: rest)
        = process_loop sc (rest.length + 1) (create_hash_table INITIAL_HASHTABLE_SIZE) rest := by
    intro h hh
    unfold process_csv process_csv_with
    rw [fgets_line h rest hh.1 hh.2]
  exact ⟨hskip header1 hheader1, by rw [hskip header1 hheader1, hskip header2 hheader2]⟩

set_option maxRecDepth 1000000 in
theorem long_header_run (sc : Bool) :
    process_csv sc (List.replicate 1023 120 ++ [97, 44, 98, 10])
      = upserts sc (create_hash_table INITIAL_HASHTABLE_SIZE) [([97], [98])] := by
  have hget : fgets MAX_LINE_LENGTH (List.replicate 1023 120 ++ [97, 44, 98, 10])
      = some (List.replicate 1023 120, [97, 44, 98, 10]) := by decide
  have hrest : ([97, 44, 98, 10] : List Byte) = text_of_lines [[97, 44, 98]] ++ [] := by decide
  unfold process_csv process_csv_with
  rw [hget]
  simp only
  rw [hrest, process_loop_lines sc [[97, 44, 98]] [] _ _ (by decide) (by decide) (by decide)
    (by decide)]
  exact process_lines_eq_upserts sc _ _ _ (by decide)

/-! ## The claims on truncation, hashing, input, output and growth -/

/-- C11, hash of the concatenated bytes: two pairs of NUL-free strings with the same
concatenation have the same hash for every table size of at least one; and when the two pairs
differ, a call with each on an empty table of capacity at least one returns a table of size
two whose occupied slots are one entry for each pair, each with count 1. -/
theorem C11_hash_concatenation (sc : Bool) (f1 s1 f2 s2 : List Byte) (table_size capacity : Nat)
    (hf1 : NulFree f1) (hs1 : NulFree s1) (hf2 : NulFree f2) (hs2 : NulFree s2)
    (hcat : f1 ++ s1 = f2 ++ s2) (hsize : 1 ≤ table_size) (hcap : 1 ≤ capacity) :
    hash_word_pair sc f1 s1 table_size = hash_word_pair sc f2 s2 table_size ∧
    ((f1, s1) ≠ (f2, s2) →
      ∃ t, upserts sc (create_hash_table capacity) [(f1, s1), (f2, s2)] = some t ∧
        t.size = 2 ∧
        List.Perm (occupied_entries t.entries)
          [{ first := strncpy_word f2, second := strncpy_word s2, count := 1, occupied := true },
           { first := strncpy_word f1, second := strncpy_word s1, count := 1,
             occupied := true }]) := by
  constructor
  · rw [hash_word_pair_eq_foldl sc f1 s1 table_size hf1 hs1,
      hash_word_pair_eq_foldl sc f2 s2 table_size hf2 hs2, hcat]
  · intro hne
    have hempty : occupied_entries (create_hash_table capacity).entries = [] := by
      simp [occupied_entries, create_hash_table, WordPair.zeroed]
    obtain ⟨ta, hrun1, hca, hsza, hperma⟩ := upsert_fresh sc (create_hash_table capacity) f1 s1
      (Counted_create capacity hcap) (by rw [hempty]; intro e he; cases he)
    rw [hempty] at hperma
    have hoa := List.perm_singleton.mp hperma
    obtain ⟨tb, hrun2, _, hszb, hpermb⟩ := upsert_fresh sc ta f2 s2 hca (by
      rw [hoa]
      intro e he
      rw [List.mem_singleton] at he
      subst he
      by_contra hsame
      have hsame2 : same_pair f2 s2
          { first := strncpy_word f1, second := strncpy_word s1, count := 1, occupied := true }
          = true := by simpa using hsame
      unfold same_pair strcmp_eq strncpy_word at hsame2
      rw [cstr_of_nulfree f1 hf1, cstr_of_nulfree s1 hs1, cstr_of_nulfree f2 hf2,
        cstr_of_nulfree s2 hs2] at hsame2
      have hnf1 : NulFree (f1.take (MAX_WORD_LENGTH - 1)) :=
        fun h0 => hf1 (List.mem_of_mem_take h0)
      have hns1 : NulFree (s1.take (MAX_WORD_LENGTH - 1)) :=
        fun h0 => hs1 (List.mem_of_mem_take h0)
      rw [cstr_of_nulfree _ hnf1, cstr_of_nulfree _ hns1] at hsame2
      simp only [Bool.and_eq_true, decide_eq_true_eq] at hsame2
      obtain ⟨e1, e2⟩ := split_determined f1 s1 f2 s2 hcat hsame2.1 hsame2.2
      exact hne (by rw [e1, e2]))
    rw [hoa] at hpermb
    refine ⟨tb, ?_, ?_, hpermb⟩
    · simp only [upserts, hrun1, hrun2]
    · rw [hszb, hsza]; rfl

theorem C11_hash_concatenation_witness :
    (NulFree [97, 98] ∧ NulFree [99] ∧ NulFree [97] ∧ NulFree [98, 99] ∧
      ([97, 98] : List Byte) ++ [99] = [97] ++ [98, 99] ∧ 1 ≤ 1000000 ∧ 1 ≤ 4) ∧
    (hash_word_pair true [97, 98] [99] 1000000 = hash_word_pair true [97] [98, 99] 1000000 ∧
    (((([97, 98] : List Byte), ([99] : List Byte)) ≠ ([97], [98, 99])) →
      ∃ t, upserts true (create_hash_table 4) [([97, 98], [99]), ([97], [98, 99])] = some t ∧
        t.size = 2 ∧
        List.Perm (occupied_entries t.entries)
          [{ first := strncpy_word [97], second := strncpy_word [98, 99], count := 1,
             occupied := true },
           { first := strncpy_word [97, 98], second := strncpy_word [99], count := 1,
             occupied := true }])) :=
  ⟨⟨by decide, by decide, by decide, by decide, by decide, by decide, by decide⟩,
    C11_hash_concatenation true [97, 98] [99] [97] [98, 99] 1000000 4 (by decide) (by decide)
      (by decide) (by decide) (by decide) (by decide) (by decide)⟩

/-- C12, enumeration in `write_results`: on every table whose size is its number of occupied
slots, the output is the line `value,next_value,count` followed by one row for each occupied
slot and none for the others, in increasing order of the slot index, each row being the first
string, a comma, the second string, a comma, the count in decimal digits and a newline; there
are exactly `size` rows; the call leaves the table as it was, so a second call gives the same
output. -/
theorem C12_enumeration (t : HashTable) (hsize : t.size = occupied_count t.entries) :
    (write_results t).1
      = [118, 97, 108, 117, 101, 44, 110, 101, 120, 116, 95, 118, 97, 108, 117, 101, 44, 99,
          111, 117, 110, 116, 10]
        ++ ((occupied_indices t.entries).map (fun i =>
            cstr (slot t.entries i).first ++ [44] ++ cstr (slot t.entries i).second ++ [44]
              ++ decimal (slot t.entries i).count ++ [10])).flatten ∧
    (occupied_indices t.entries).length = t.size ∧
    (∀ i, i ∈ occupied_indices t.entries ↔ i < t.capacity ∧ (slot t.entries i).occupied = true) ∧
    List.Pairwise (fun i j => i < j) (occupied_indices t.entries) ∧
    (∀ n, decimal n
      = if n < 10 then [Fin.ofNat (48 + n)]
        else decimal (n / 10) ++ [Fin.ofNat (48 + n % 10)]) ∧
    (write_results t).2 = t ∧
    (write_results (write_results t).2).1 = (write_results t).1 := by
  refine ⟨?_, ?_, ?_, ?_, decimal_eq, rfl, rfl⟩
  · unfold write_results
    simp only
    rw [write_loop_eq, occupied_entries_eq_indices, List.map_map]
    unfold output_header
    congr 2
    apply List.map_congr_left
    intro i _
    simp [format_row]
  · rw [occupied_indices_length, hsize]
  · intro i
    unfold occupied_indices HashTable.capacity
    simp [List.mem_filter, List.mem_range]
  · unfold occupied_indices
    exact List.Pairwise.filter _ (List.pairwise_lt_range _)

theorem C12_enumeration_witness :
    (2 : Nat) = occupied_count
      [{ first := [99], second := [100], count := 12, occupied := true }, WordPair.zeroed,
       { first := [102], second := [98], count := 1, occupied := true }] ∧
    ((write_results
        { entries := [{ first := [99], second := [100], count := 12, occupied := true },
            WordPair.zeroed,
            { first := [102], second := [98], count := 1, occupied := true }],
          size := 2 }).1
      = [118, 97, 108, 117, 101, 44, 110, 101, 120, 116, 95, 118, 97, 108, 117, 101, 44, 99,
          111, 117, 110, 116, 10]
        ++ [99, 44, 100, 44, 49, 50, 10] ++ [102, 44, 98, 44, 49, 10]) :=
  ⟨by decide,
    (C12_enumeration
      { entries := [{ first := [99], second := [100], count := 12, occupied := true },
          WordPair.zeroed,
          { first := [102], second := [98], count := 1, occupied := true }],
        size := 2 } (by decide)).1.trans (by decide)⟩

/-- C13, skip malformed lines: for an input made of a header line and record lines of at most
1022 bytes each (the last one with or without its newline), the run returns an output, and
the same output is returned for the input without its lines that hold no delimiter, the blank
lines among them; this holds for the program, whose initial capacity is 1000000, and for
every initial capacity of at least one; on such a line the loop body returns the table
unchanged. -/
theorem C13_skip_malformed (sc : Bool) (capacity : Nat) (header : List Byte)
    (lines : List (List Byte)) (last : List Byte) (hcap : 1 ≤ capacity)
    (hheader : (10 : Byte) ∉ header ∧ header.length ≤ 1022)
    (hlines : ∀ l ∈ lines, (10 : Byte) ∉ l ∧ l.length ≤ 1022)
    (hlast : (10 : Byte) ∉ last ∧ last.length ≤ 1022) :
    (∃ out,
      main_output sc (header ++ 10 :: (text_of_lines lines ++ last)) = some out ∧
      main_output sc
        (header ++ 10 :: (text_of_lines (lines.filter has_delimiter)
          ++ if has_delimiter last then last else [])) = some out) ∧
    (∃ out,
      main_output_with sc capacity (header ++ 10 :: (text_of_lines lines ++ last)) = some out ∧
      main_output_with sc capacity
        (header ++ 10 :: (text_of_lines (lines.filter has_delimiter)
          ++ if has_delimiter last then last else [])) = some out) ∧
    (∀ (table : HashTable) (l : List Byte), (l = [] ∨ has_delimiter l = false) →
      process_line sc table (l ++ [10]) = some table ∧ process_line sc table l = some table) := by
  refine ⟨main_output_with_filter sc INITIAL_HASHTABLE_SIZE header lines last (by decide)
      hheader hlines hlast,
    main_output_with_filter sc capacity header lines last hcap hheader hlines hlast, ?_⟩
  intro table l hl
  have hno : (44 : Byte) ∉ l := by
    rcases hl with hl | hl
    · rw [hl]; simp
    · simpa [has_delimiter] using hl
  refine ⟨process_line_no_comma sc table _ ?_, process_line_no_comma sc table l hno⟩
  intro h
  rw [List.mem_append] at h
  rcases h with h | h
  · exact hno h
  · exact absurd h (by decide)

theorem C13_skip_malformed_witness :
    (1 ≤ 4 ∧ ((10 : Byte) ∉ ([104] : List Byte) ∧ ([104] : List Byte).length ≤ 1022) ∧
      (∀ l ∈ ([[97, 44, 98], [], [120, 121], [97, 44, 98]] : List (List Byte)),
        (10 : Byte) ∉ l ∧ l.length ≤ 1022) ∧
      ((10 : Byte) ∉ ([122] : List Byte) ∧ ([122] : List Byte).length ≤ 1022)) ∧
    ((∃ out,
      main_output true
        ([104] ++ 10 :: (text_of_lines [[97, 44, 98], [], [120, 121], [97, 44, 98]] ++ [122]))
        = some out ∧
      main_output true
        ([104] ++ 10 :: (text_of_lines
            (([[97, 44, 98], [], [120, 121], [97, 44, 98]] : List (List Byte)).filter
              has_delimiter)
          ++ if has_delimiter [122] then [122] else [])) = some out) ∧
    (∃ out,
      main_output_with true 4
        ([104] ++ 10 :: (text_of_lines [[97, 44, 98], [], [120, 121], [97, 44, 98]] ++ [122]))
        = some out ∧
      main_output_with true 4
        ([104] ++ 10 :: (text_of_lines
            (([[97, 44, 98], [], [120, 121], [97, 44, 98]] : List (List Byte)).filter
              has_delimiter)
          ++ if has_delimiter [122] then [122] else [])) = some out) ∧
    (∀ (table : HashTable) (l : List Byte), (l = [] ∨ has_delimiter l = false) →
      process_line true table (l ++ [10]) = some table ∧
        process_line true table l = some table)) :=
  ⟨⟨by decide, by decide, by decide, by decide⟩,
    C13_skip_malformed true 4 [104] [[97, 44, 98], [], [120, 121], [97, 44, 98]] [122]
      (by decide) (by decide) (by decide) (by decide)⟩

/-- C14, failing input of the header clause: a first line of 1026 bytes, 1023 bytes `x`
followed by `a,b`, is counted as a record: the output is the line `value,next_value,count`
followed by the row `a,b,1`.  On the input of the scenario, whose first line fits the buffer,
the output is that line followed by the rows `cat,dog,2` and `fish,bird,1`, in one order or
the other. -/
theorem C14_long_header_counted (sc : Bool) :
    main_output sc (List.replicate 1023 120 ++ [97, 44, 98, 10])
      = some ([118, 97, 108, 117, 101, 44, 110, 101, 120, 116, 95, 118, 97, 108, 117, 101, 44,
          99, 111, 117, 110, 116, 10] ++ [97, 44, 98, 44, 49, 10]) ∧
    (main_output sc scenario_input
        = some ([118, 97, 108, 117, 101, 44, 110, 101, 120, 116, 95, 118, 97, 108, 117, 101, 44,
            99, 111, 117, 110, 116, 10]
            ++ [99, 97, 116, 44, 100, 111, 103, 44, 50, 10]
            ++ [102, 105, 115, 104, 44, 98, 105, 114, 100, 44, 49, 10]) ∨
      main_output sc scenario_input
        = some ([118, 97, 108, 117, 101, 44, 110, 101, 120, 116, 95, 118, 97, 108, 117, 101, 44,
            99, 111, 117, 110, 116, 10]
            ++ [102, 105, 115, 104, 44, 98, 105, 114, 100, 44, 49, 10]
            ++ [99, 97, 116, 44, 100, 111, 103, 44, 50, 10])) := by
  refine ⟨?_, scenario_output sc⟩
  obtain ⟨rows, hperm, hout⟩ := output_of_calls sc _ _ (long_header_run sc) (by decide)
  have hlist : List.map (entry_of [([97], [98])])
      (List.dedup [(([97] : List Byte), ([98] : List Byte))])
      = [{ first := [97], second := [98], count := 1, occupied := true }] := by
    decide
  rw [hlist] at hperm
  rw [hout, List.perm_singleton.mp hperm]
  decide

/-- C15, resize trigger: on every table with capacity at least one and size at most the
capacity, for every pair, the resize check of `insert_or_update` returns; it changes the
capacity exactly when `10 * size ≥ 7 * capacity` on entry, then to exactly twice the old
capacity, and otherwise leaves the table as it is; the probe and the write are made on the
table after the check and keep its capacity; and the call returns when the size is the number
of occupied slots. -/
theorem C15_resize_trigger (sc : Bool) (t : HashTable) (first second : List Byte)
    (hcap : 1 ≤ t.capacity) (hsize : t.size ≤ t.capacity) :
    ∃ t1, resize_check sc t = some t1 ∧
      (t1.capacity ≠ t.capacity ↔ 7 * t.capacity ≤ 10 * t.size) ∧
      (7 * t.capacity ≤ 10 * t.size → t1.capacity = 2 * t.capacity) ∧
      (¬ 7 * t.capacity ≤ 10 * t.size → t1 = t) ∧
      insert_or_update sc t first second
        = (find_slot sc t1 first second).map (fun r => write_slot t1 first second r.1 r.2) ∧
      (∀ t2, insert_or_update sc t first second = some t2 → t2.capacity = t1.capacity) ∧
      (t.size = occupied_count t.entries →
        ∃ t2, insert_or_update sc t first second = some t2 ∧ t2.capacity = t1.capacity) := by
  obtain ⟨t1, h1, hyes, hno⟩ := resize_check_total sc t hcap
  have hmap := insert_or_update_map sc t t1 first second h1
  have hkeep : ∀ t2, insert_or_update sc t first second = some t2 → t2.capacity = t1.capacity := by
    intro t2 h2
    rw [hmap] at h2
    cases hf : find_slot sc t1 first second with
    | none => rw [hf] at h2; cases h2
    | some r =>
      rw [hf] at h2
      cases h2
      exact write_slot_capacity t1 first second r.1 r.2
  refine ⟨t1, h1, ?_, hyes, hno, hmap, hkeep, ?_⟩
  · constructor
    · intro hne
      by_contra hl
      exact hne (by rw [hno hl])
    · intro hl
      rw [hyes hl]
      omega
  · intro hcount
    obtain ⟨t1b, j, b, _, _, hrun, _⟩ := insert_or_update_shape sc t first second
      ⟨by omega, hcount⟩
    exact ⟨_, hrun, hkeep _ hrun⟩

theorem C15_resize_trigger_witness :
    (1 ≤ HashTable.capacity
        { entries := [{ first := [99], second := [100], count := 7, occupied := true },
            WordPair.zeroed], size := 1 } ∧
      HashTable.size
        { entries := [{ first := [99], second := [100], count := 7, occupied := true },
            WordPair.zeroed], size := 1 } ≤
      HashTable.capacity
        { entries := [{ first := [99], second := [100], count := 7, occupied := true },
            WordPair.zeroed], size := 1 }) ∧
    ∃ t1, resize_check true
        { entries := [{ first := [99], second := [100], count := 7, occupied := true },
            WordPair.zeroed], size := 1 } = some t1 ∧
      (t1.capacity ≠ 2 ↔ 7 * 2 ≤ 10 * 1) ∧
      (7 * 2 ≤ 10 * 1 → t1.capacity = 2 * 2) ∧
      (¬ 7 * 2 ≤ 10 * 1 → t1 =
        { entries := [{ first := [99], second := [100], count := 7, occupied := true },
            WordPair.zeroed], size := 1 }) ∧
      insert_or_update true
          { entries := [{ first := [99], second := [100], count := 7, occupied := true },
            WordPair.zeroed], size := 1 } [102] [98]
        = (find_slot true t1 [102] [98]).map (fun r => write_slot t1 [102] [98] r.1 r.2) ∧
      (∀ t2, insert_or_update true
          { entries := [{ first := [99], second := [100], count := 7, occupied := true },
            WordPair.zeroed], size := 1 } [102] [98] = some t2 → t2.capacity = t1.capacity) ∧
      ((1 : Nat) = occupied_count
          [{ first := [99], second := [100], count := 7, occupied := true }, WordPair.zeroed] →
        ∃ t2, insert_or_update true
          { entries := [{ first := [99], second := [100], count := 7, occupied := true },
            WordPair.zeroed], size := 1 } [102] [98] = some t2 ∧
          t2.capacity = t1.capacity) :=
  ⟨⟨by decide, by decide⟩,
    C15_resize_trigger true
      { entries := [{ first := [99], second := [100], count := 7, occupied := true },
          WordPair.zeroed], size := 1 } [102] [98] (by decide) (by decide)⟩

/-- C16, termination of linear probing: on every table with capacity at least one whose size
is its number of occupied slots, `resize_hash_table` returns, each of its re-probe loops
having stopped within as many steps as the new array has slots (as the re-probe loop does on
every array that has a free slot, at a free index below the length); the resize check returns
a table that has a free slot; and on that table the probe loop of `insert_or_update` starts
below the capacity and stops within `capacity` steps at an index below the capacity. -/
theorem C16_probe_termination (sc : Bool) (t : HashTable) (first second : List Byte)
    (hcap : 1 ≤ t.capacity) (hsize : t.size = occupied_count t.entries) :
    (∃ t2, resize_hash_table sc t = some t2) ∧
    (∀ (new_entries : List WordPair) (start : Nat),
      occupied_count new_entries < new_entries.length → start < new_entries.length →
      ∃ index, probe_empty new_entries new_entries.length start = some index ∧
        index < new_entries.length ∧ (slot new_entries index).occupied = false) ∧
    ∃ t1, resize_check sc t = some t1 ∧
      (∃ k, k < t1.capacity ∧ (slot t1.entries k).occupied = false) ∧
      hash_word_pair sc first second t1.capacity < t1.capacity ∧
      ∃ index found,
        probe_insert t1.entries first second t1.capacity
          (hash_word_pair sc first second t1.capacity) = some (index, found) ∧
        index < t1.capacity := by
  have hempty : ∀ (new_entries : List WordPair) (start : Nat),
      occupied_count new_entries < new_entries.length → start < new_entries.length →
      ∃ index, probe_empty new_entries new_entries.length start = some index ∧
        index < new_entries.length ∧ (slot new_entries index).occupied = false := by
    intro ne start hroom hstart
    obtain ⟨j, hj⟩ := probe_empty_total ne start hstart hroom
    obtain ⟨d, _, hjd, _, hfree⟩ := probe_empty_spec ne _ _ j hstart hj
    exact ⟨j, hj, by rw [hjd]; exact Nat.mod_lt _ (by omega), hfree⟩
  obtain ⟨t2, h2, _⟩ := resize_spec sc t
  obtain ⟨t1, h1, hc1, _, hload, _, _, _, _⟩ := resize_check_spec sc t ⟨by omega, hsize⟩
  have hroom : t1.size < t1.capacity := by omega
  have hfree : occupied_count t1.entries < t1.entries.length := by
    rw [← hc1.size_eq]; exact hroom
  obtain ⟨j, b, hfind, hj, _⟩ := find_slot_spec sc t1 first second hc1 hroom
  refine ⟨⟨t2, h2⟩, hempty, t1, h1, exists_free_slot hfree,
    hash_word_pair_lt sc first second hc1.cap_pos, j, b, ?_, hj⟩
  unfold find_slot at hfind
  rw [if_neg (by have := hc1.cap_pos; omega)] at hfind
  exact hfind

theorem C16_probe_termination_witness :
    (1 ≤ HashTable.capacity
        { entries := [{ first := [99], second := [100], count := 7, occupied := true }],
          size := 1 } ∧
      (1 : Nat) = occupied_count
        [{ first := [99], second := [100], count := 7, occupied := true }]) ∧
    ((∃ t2, resize_hash_table true
        { entries := [{ first := [99], second := [100], count := 7, occupied := true }],
          size := 1 } = some t2) ∧
    (∀ (new_entries : List WordPair) (start : Nat),
      occupied_count new_entries < new_entries.length → start < new_entries.length →
      ∃ index, probe_empty new_entries new_entries.length start = some index ∧
        index < new_entries.length ∧ (slot new_entries index).occupied = false) ∧
    ∃ t1, resize_check true
        { entries := [{ first := [99], second := [100], count := 7, occupied := true }],
          size := 1 } = some t1 ∧
      (∃ k, k < t1.capacity ∧ (slot t1.entries k).occupied = false) ∧
      hash_word_pair true [102] [98] t1.capacity < t1.capacity ∧
      ∃ index found,
        probe_insert t1.entries [102] [98] t1.capacity
          (hash_word_pair true [102] [98] t1.capacity) = some (index, found) ∧
        index < t1.capacity) :=
  ⟨⟨by decide, by decide⟩,
    C16_probe_termination true
      { entries := [{ first := [99], second := [100], count := 7, occupied := true }],
        size := 1 } [102] [98] (by decide) (by decide)⟩

/-- C17 as stated fails: a call that matches the entry whose count is `2^32 - 1` leaves that
entry with count 0. -/
theorem C17_count_wrap_counterexample :
    (insert_or_update true
        { entries := [{ first := [97], second := [98], count := 4294967295, occupied := true },
            WordPair.zeroed, WordPair.zeroed, WordPair.zeroed],
          size := 1 } [97] [98]).map (fun t => (occupied_entries t.entries).map triple)
      = some [([97], [98], 0)] ∧
    hash_word_pair true [97] [98] 4 = 0 := by
  decide

/-- C17 amended, count of one call: on every table, a call whose probe stops on an occupied
slot holding the same pair returns and leaves in that slot the old count plus one modulo
`2^32`, which is the old count plus one unless the old count is `2^32 - 1`; a call whose probe
stops on a free slot returns and leaves count 1 in that slot. -/
theorem C17_count_step (sc : Bool) (t t1 : HashTable) (first second : List Byte) (index : Nat)
    (found : Bool) (hcheck : resize_check sc t = some t1)
    (hprobe : find_slot sc t1 first second = some (index, found)) :
    ∃ t2, insert_or_update sc t first second = some t2 ∧
      (found = true →
        (slot t2.entries index).count = ((slot t1.entries index).count + 1) % 2 ^ 32 ∧
        ((slot t1.entries index).count + 1 < 2 ^ 32 →
          (slot t2.entries index).count = (slot t1.entries index).count + 1)) ∧
      (found = false → (slot t2.entries index).count = 1) := by
  have hj := find_slot_lt sc t1 first second index found hprobe
  refine ⟨_, insert_or_update_eq sc t t1 first second index found hcheck hprobe, ?_, ?_⟩
  · intro hb
    subst hb
    rw [slot_write_slot t1 first second index true hj]
    simp only [if_true]
    exact ⟨trivial, fun hlt => Nat.mod_eq_of_lt hlt⟩
  · intro hb
    subst hb
    rw [slot_write_slot t1 first second index false hj]
    simp

theorem C17_count_step_witness :
    (resize_check true
        { entries := [{ first := [97], second := [98], count := 5, occupied := true },
            WordPair.zeroed, WordPair.zeroed, WordPair.zeroed],
          size := 1 }
      = some
        { entries := [{ first := [97], second := [98], count := 5, occupied := true },
            WordPair.zeroed, WordPair.zeroed, WordPair.zeroed],
          size := 1 } ∧
      find_slot true
        { entries := [{ first := [97], second := [98], count := 5, occupied := true },
            WordPair.zeroed, WordPair.zeroed, WordPair.zeroed],
          size := 1 } [97] [98] = some (0, true)) ∧
    ∃ t2, insert_or_update true
        { entries := [{ first := [97], second := [98], count := 5, occupied := true },
            WordPair.zeroed, WordPair.zeroed, WordPair.zeroed],
          size := 1 } [97] [98] = some t2 ∧
      (true = true →
        (slot t2.entries 0).count
          = ((slot [{ first := [97], second := [98], count := 5, occupied := true },
              WordPair.zeroed, WordPair.zeroed, WordPair.zeroed] 0).count + 1) % 2 ^ 32 ∧
        ((slot [{ first := [97], second := [98], count := 5, occupied := true },
              WordPair.zeroed, WordPair.zeroed, WordPair.zeroed] 0).count + 1 < 2 ^ 32 →
          (slot t2.entries 0).count
            = (slot [{ first := [97], second := [98], count := 5, occupied := true },
              WordPair.zeroed, WordPair.zeroed, WordPair.zeroed] 0).count + 1)) ∧
      (true = false → (slot t2.entries 0).count = 1) :=
  ⟨⟨by decide, by decide⟩,
    C17_count_step true
      { entries := [{ first := [97], second := [98], count := 5, occupied := true },
          WordPair.zeroed, WordPair.zeroed, WordPair.zeroed],
        size := 1 }
      { entries := [{ first := [97], second := [98], count := 5, occupied := true },
          WordPair.zeroed, WordPair.zeroed, WordPair.zeroed],
        size := 1 } [97] [98] 0 true (by decide) (by decide)⟩

set_option maxRecDepth 1000000 in
/-- C18, failing input of the line bound: a record line of 1026 bytes, `a,b` followed by 1020
bytes `x` and `c,d`, is read in two buffers; the first 1023 bytes give the pair `a` with `b`
and 254 bytes `x`, and the bytes behind them, `c,d`, are parsed as a record of their own and
counted, where the same line without `c,d` gives the first pair only. -/
theorem C18_long_line_read_twice :
    (process_csv_with true 4
        ([104, 10] ++ ([97, 44, 98] ++ List.replicate 1020 120 ++ [99, 44, 100, 10]))).map
      (fun t => (t.size, (occupied_entries t.entries).map triple))
      = some (2, [([97], 98 :: List.replicate 254 120, 1), ([99], [100], 1)]) ∧
    (process_csv_with true 4
        ([104, 10] ++ ([97, 44, 98] ++ List.replicate 1020 120 ++ [10]))).map
      (fun t => (t.size, (occupied_entries t.entries).map triple))
      = some (1, [([97], 98 :: List.replicate 254 120, 1)]) ∧
    fgets MAX_LINE_LENGTH ([97, 44, 98] ++ List.replicate 1020 120 ++ [99, 44, 100, 10])
      = some ([97, 44, 98] ++ List.replicate 1020 120, [99, 44, 100, 10]) := by
  refine ⟨?_, ?_, ?_⟩ <;> decide

/-- C19 as stated fails: four calls with four pairs on the empty table of capacity one end,
after three resizes, with four entries in eight slots. -/
theorem C19_capacity_overhead_counterexample :
    (upserts true (create_hash_table 1) [([97], [120]), ([98], [120]), ([99], [120]),
        ([100], [120])]).map (fun t => (t.capacity, t.size)) = some (8, 4) ∧
      (8 : Nat) ≠ 1 ∧ ¬ (7 * 8 ≤ 10 * 4) := by
  decide

/-- C19 amended, capacity overhead: in every table reached by calls from an empty table of
capacity at least one, once the capacity differs from the initial one (a resize has
occurred), `7 * capacity ≤ 20 * size`: the capacity is at most `2 / 0.7`, about 2.86, times
the number of stored entries. -/
theorem C19_capacity_overhead (sc : Bool) (capacity : Nat)
    (calls : List (List Byte × List Byte)) (hcap : 1 ≤ capacity) :
    ∃ t, upserts sc (create_hash_table capacity) calls = some t ∧
      (t.capacity ≠ capacity → 7 * t.capacity ≤ 20 * t.size) := by
  obtain ⟨t, hrun, _, k, hk, hfull⟩ := grown_upserts sc capacity calls hcap
  refine ⟨t, hrun, ?_⟩
  intro hne
  apply hfull
  by_contra h0
  have : k = 0 := by omega
  rw [this] at hk
  exact hne (by rw [hk]; simp)

theorem C19_capacity_overhead_witness :
    1 ≤ 1 ∧
    ∃ t, upserts true (create_hash_table 1) [([97], [120]), ([98], [120])] = some t ∧
      (t.capacity ≠ 1 → 7 * t.capacity ≤ 20 * t.size) :=
  ⟨by decide, C19_capacity_overhead true 1 [([97], [120]), ([98], [120])] (by decide)⟩

/-- C20, occupancy after growth: for every initial capacity `c0` of at least one and every
sequence of calls, the calls return a table whose capacity is `c0 * 2^k` for some `k`, with
`20 * size ≥ 7 * capacity` when `k ≥ 1`. -/
theorem C20_occupancy_after_growth (sc : Bool) (c0 : Nat)
    (calls : List (List Byte × List Byte)) (hcap : 1 ≤ c0) :
    ∃ t k, upserts sc (create_hash_table c0) calls = some t ∧
      t.capacity = c0 * 2 ^ k ∧ (1 ≤ k → 20 * t.size ≥ 7 * t.capacity) := by
  obtain ⟨t, hrun, _, k, hk, hfull⟩ := grown_upserts sc c0 calls hcap
  exact ⟨t, k, hrun, hk, hfull⟩

theorem C20_occupancy_after_growth_witness :
    1 ≤ 1 ∧
    ∃ t k, upserts true (create_hash_table 1) [([97], [120]), ([98], [120]), ([99], [120])]
        = some t ∧
      t.capacity = 1 * 2 ^ k ∧ (1 ≤ k → 20 * t.size ≥ 7 * t.capacity) :=
  ⟨by decide,
    C20_occupancy_after_growth true 1 [([97], [120]), ([98], [120]), ([99], [120])]
      (by decide)⟩

end UniquePairs
